import Mathlib

/-!
A verification development for the mention extraction and synchronization
engine of an editor extension (source file `src/main.ts`). Pure functions of
the source are shallowly embedded as executable Lean definitions; stateful
components (the update scheduler, retry loop and in-progress marker sets)
are embedded as explicit state-passing step functions. The external YAML
library used for the document metadata block is modelled from the spec's
contract on the subset of the notation the claims exercise; such
definitions carry a doc comment beginning `Modelled from the spec:`.
-/

/-! ### Pattern matcher

`src/main.ts` uses the regular expression `/@[a-zа-я.-]+/g` (lines 680,
784, 1237, ...). `scanMentionsAux` is its operational semantics: a
left-to-right, non-overlapping scan; the second argument is `some run`
while the scanner sits after an `@` collecting allowed characters
(in reverse). -/

/-- Character class `[a-zа-я.-]`: lowercase Latin letters, lowercase
Cyrillic letters (U+0430..U+044F), dot and hyphen. -/
def isAllowedMentionChar (c : Char) : Bool :=
  (0x61 ≤ c.toNat && c.toNat ≤ 0x7A) || (0x430 ≤ c.toNat && c.toNat ≤ 0x44F)
    || c == '.' || c == '-'

/-- Scanner for `/@[a-zа-я.-]+/g`: state `some run` means the scanner has
read an `@` and then the characters of `run` (reversed), all allowed. -/
def scanMentionsAux : List Char → Option (List Char) → List (List Char)
  | [], none => []
  | [], some run => if run.isEmpty then [] else ['@' :: run.reverse]
  | c :: rest, none =>
    if c = '@' then scanMentionsAux rest (some []) else scanMentionsAux rest none
  | c :: rest, some run =>
    if isAllowedMentionChar c then scanMentionsAux rest (some (c :: run))
    else if run.isEmpty then
      (if c = '@' then scanMentionsAux rest (some []) else scanMentionsAux rest none)
    else
      ('@' :: run.reverse) ::
        (if c = '@' then scanMentionsAux rest (some []) else scanMentionsAux rest none)

/-- All matches of `/@[a-zа-я.-]+/g` in a character list (what
`content.match(...)` returns, `[]` for `null`). -/
def jsMatchAll (content : List Char) : List (List Char) :=
  scanMentionsAux content none

/-- Trailing punctuation class `[.,!?;:]+$` used by
`extractMentionsFromContent` to normalize a mention's tail. -/
def isTrailPunct (c : Char) : Bool :=
  c == '.' || c == ',' || c == '!' || c == '?' || c == ';' || c == ':'

/-- `mention.replace(/[.,!?;:]+$/, '')`: strip the maximal trailing run of
punctuation characters. -/
def stripTrailingPunct (l : List Char) : List Char :=
  (l.reverse.dropWhile isTrailPunct).reverse

/-- Keep the first occurrence of each element, like iterating a JS `Set`
built by insertion. -/
def dedupFirst (l : List String) : List String :=
  l.foldl (fun acc a => if a ∈ acc then acc else acc ++ [a]) []

/-- `MentionsPlugin.extractMentionsFromContent` (src/main.ts lines
678-691): match the regex, drop the `@`, strip trailing punctuation,
filter out empty strings and deduplicate. -/
def extractMentionsFromContent (content : String) : List String :=
  let found := jsMatchAll content.toList
  let mentions := found.map (fun m => stripTrailingPunct (m.drop 1))
  dedupFirst ((mentions.filter (fun m => 0 < m.length)).map (fun m => String.mk m))

/-! ### String search (JS `String.prototype.indexOf`) -/

/-- Whether `p` occurs at the head of `l`. -/
def headMatches (l p : List Char) : Bool :=
  l.take p.length = p

/-- Search loop for `indexOf`. -/
def indexOfGo : List Char → List Char → Nat → Option Nat
  | [], p, i => if p.isEmpty then some i else none
  | c :: rest, p, i =>
    if headMatches (c :: rest) p then some i else indexOfGo rest p (i + 1)

/-- JS `hay.indexOf(pat)`: index of the first occurrence, `-1` if absent. -/
def jsIndexOf (hay pat : List Char) : Int :=
  match indexOfGo hay pat 0 with
  | some i => (i : Int)
  | none => -1

/-- Substring containment, JS `hay.includes(needle)`. -/
def containsSub : List Char → List Char → Bool
  | [], needle => needle.isEmpty
  | c :: rest, needle => headMatches (c :: rest) needle || containsSub rest needle

/-! ### Mention index (the in-memory `Mention[]` of `MentionsPlugin`) -/

/-- A mention record: `{ text, file, position }` (src/main.ts lines
105-109). `position` is an `Int` because JS `indexOf` can return `-1`. -/
structure Mention where
  text : String
  file : String
  position : Int
deriving DecidableEq, Repr

/-- The per-file scan of `MentionsPlugin.refreshAllMentions` (src/main.ts
lines 781-804): for each regex match, the position is computed with
`content.indexOf(match)` (no start offset), and the entry is appended only
if no entry with the same `(text, file, position)` triple exists. -/
def refreshScanFile (acc : List Mention) (file : String) (content : String) : List Mention :=
  (jsMatchAll content.toList).foldl
    (fun acc m =>
      let cleanMatch := String.mk m
      let position := jsIndexOf content.toList m
      if acc.any (fun x => x.text = cleanMatch && x.file = file && x.position = position)
      then acc
      else acc ++ [⟨cleanMatch, file, position⟩])
    acc

/-- The vault `modify` handler's rescan (src/main.ts lines 1233-1250):
drop the file's old entries, then push an entry for every match with
`content.indexOf(match)` as position (no duplicate check here). -/
def modifyScanMentions (mentions : List Mention) (file : String) (content : String) :
    List Mention :=
  let kept := mentions.filter (fun m => m.file ≠ file)
  kept ++ (jsMatchAll content.toList).map
    (fun m => ⟨String.mk m, file, jsIndexOf content.toList m⟩)

/-- The unique mention texts, `new Set(mentions.map(m => m.text))` in
insertion order (src/main.ts line 176). -/
def uniqueMentionTexts (mentions : List Mention) : List String :=
  dedupFirst (mentions.map (fun m => m.text))

/-! ### Update scheduler (`FilePropertiesManager`, src/main.ts lines
364-459): per-document debounced updates, retry loop, and the two
in-progress marker sets of the plugin. -/

/-- Replace the value stored under `k`, or append a fresh entry — the JS
`Map.set` / object property assignment semantics (insertion order kept,
existing key overwritten in place). -/
def mapSet {β : Type} : List (String × β) → String → β → List (String × β)
  | [], k, v => [(k, v)]
  | (k', v') :: rest, k, v =>
    if k' = k then (k, v) :: rest else (k', v') :: mapSet rest k v

/-- JS `Map.get` / object property read. -/
def mapGet {β : Type} (l : List (String × β)) (k : String) : Option β :=
  (l.find? (fun e => e.1 = k)).map (fun e => e.2)

/-- `FilePropertiesManager` scheduling state plus a log of synchronizer
invocations. `updateQueue` holds `(mentions, timestamp)` per path,
`pendingUpdates` the active timeout id per path, `activeTimers` the
not-yet-cleared timeouts `(id, path, captured timestamp)`. -/
structure SchedulerState where
  updateQueue : List (String × (List String × Nat))
  pendingUpdates : List (String × Nat)
  activeTimers : List (Nat × String × Nat)
  nextTimerId : Nat
  invocations : List (String × List String)
deriving DecidableEq, Repr

/-- The empty scheduler. -/
def initScheduler : SchedulerState :=
  ⟨[], [], [], 0, []⟩

/-- `FilePropertiesManager.scheduleUpdate` (src/main.ts lines 381-409):
store the latest `(mentions, timestamp)` for the path, clear any existing
timeout for it, and set a fresh timeout whose callback captures
`timestamp`. `auto` is `settings.autoUpdateProperties`. -/
def scheduleUpdate (auto : Bool) (s : SchedulerState) (path : String)
    (mentions : List String) (now : Nat) : SchedulerState :=
  if auto = false then s
  else
    let queue := mapSet s.updateQueue path (mentions, now)
    let timers :=
      match mapGet s.pendingUpdates path with
      | some tid => s.activeTimers.filter (fun t => t.1 ≠ tid)
      | none => s.activeTimers
    { updateQueue := queue
      pendingUpdates := mapSet s.pendingUpdates path s.nextTimerId
      activeTimers := timers ++ [(s.nextTimerId, path, now)]
      nextTimerId := s.nextTimerId + 1
      invocations := s.invocations }

/-- Firing a timeout (the callback of src/main.ts lines 398-405): if the
timer is still active, run its callback: when the queued update for the
path still carries the captured timestamp, invoke the synchronizer with
the queued mentions and drop the queue entry; always drop the pending
entry. Cleared timer ids are absent from `activeTimers`, so firing them
is a no-op. -/
def fireTimer (s : SchedulerState) (tid : Nat) : SchedulerState :=
  match s.activeTimers.find? (fun t => t.1 = tid) with
  | none => s
  | some t =>
    let path := t.2.1
    let captured := t.2.2
    let s1 := { s with activeTimers := s.activeTimers.filter (fun u => u.1 ≠ tid) }
    match mapGet s1.updateQueue path with
    | some q =>
      if q.2 = captured then
        { s1 with
          invocations := s1.invocations ++ [(path, q.1)]
          updateQueue := s1.updateQueue.filter (fun e => e.1 ≠ path)
          pendingUpdates := s1.pendingUpdates.filter (fun e => e.1 ≠ path) }
      else { s1 with pendingUpdates := s1.pendingUpdates.filter (fun e => e.1 ≠ path) }
    | none => { s1 with pendingUpdates := s1.pendingUpdates.filter (fun e => e.1 ≠ path) }

/-- `FilePropertiesManager.MAX_RETRIES` (src/main.ts line 371). -/
def MAX_RETRIES : Nat := 3

/-- `FilePropertiesManager.RETRY_DELAY` (src/main.ts line 372). -/
def RETRY_DELAY : Nat := 500

/-- Observable outcome of one `executeUpdate` call chain: overall result,
number of `updateFileProperties` attempts, the backoff delays slept
between attempts, and the user-visible notice (if any). -/
structure RunLog where
  success : Bool
  attempts : Nat
  delays : List Nat
  notice : Option String
deriving DecidableEq, Repr

/-- Failure notice text of src/main.ts line 453. -/
def failureNotice (fileName msg : String) : String :=
  "Failed to update properties for " ++ fileName ++ ": " ++ msg

/-- Recursion core of `FilePropertiesManager.executeUpdate` (src/main.ts
lines 414-459), with `retriesLeft = MAX_RETRIES - retryCount` made
structural. `succeeds n` tells whether the attempt with `retryCount = n`
succeeds (file readable, write ok). On failure with retries left, sleep
`RETRY_DELAY * (retryCount + 1)` and recurse with `retryCount + 1`;
otherwise surface the notice and stop. -/
def executeUpdateAux (succeeds : Nat → Bool) (fileName msg : String) :
    Nat → Nat → RunLog
  | retryCount, 0 =>
    if succeeds retryCount then ⟨true, 1, [], none⟩
    else ⟨false, 1, [], some (failureNotice fileName msg)⟩
  | retryCount, left + 1 =>
    if succeeds retryCount then ⟨true, 1, [], none⟩
    else
      let r := executeUpdateAux succeeds fileName msg (retryCount + 1) left
      ⟨r.success, r.attempts + 1, RETRY_DELAY * (retryCount + 1) :: r.delays, r.notice⟩

/-- `executeUpdate` started at a given `retryCount` (the external entry
point uses `retryCount = 0`); retries happen while
`retryCount < MAX_RETRIES`. -/
def executeUpdateRun (succeeds : Nat → Bool) (fileName msg : String)
    (retryCount : Nat) : RunLog :=
  executeUpdateAux succeeds fileName msg retryCount (MAX_RETRIES - retryCount)

/-! ### In-progress markers and the vault modify handler

The source holds TWO distinct marker sets named `updatingProperties`:
`FilePropertiesManager.updatingProperties` (line 367), which
`executeUpdate` adds to (line 424) and clears in its `finally` block
(line 457), and the legacy `MentionsPlugin.updatingProperties` (line
658), which the vault `modify` handler consults (line 1222) but which no
code path ever adds to. -/

/-- The state the modify handler and `executeUpdate` interact through. -/
structure LifecycleState where
  mentions : List Mention
  pluginUpdating : List String
  managerUpdating : List String
deriving DecidableEq, Repr

/-- Marker insertion of `executeUpdate` (src/main.ts lines 419-424): skip
if already present, else add to the manager's set. -/
def beginManagerUpdate (s : LifecycleState) (path : String) : LifecycleState :=
  if s.managerUpdating.contains path then s
  else { s with managerUpdating := s.managerUpdating ++ [path] }

/-- The `finally` block of `executeUpdate` (src/main.ts line 457): remove
the path from the manager's marker set. -/
def endManagerUpdate (s : LifecycleState) (path : String) : LifecycleState :=
  { s with managerUpdating := s.managerUpdating.filter (fun p => p ≠ path) }

/-- The vault `modify` handler (src/main.ts lines 1218-1259): return
early when the path is in the PLUGIN's legacy marker set, else replace
the file's entries with a fresh scan. -/
def onModify (s : LifecycleState) (path content : String) : LifecycleState :=
  if s.pluginUpdating.contains path then s
  else { s with mentions := modifyScanMentions s.mentions path content }

/-! ### Frontmatter parsing and serialization (`FilePropertiesManager`,
src/main.ts lines 461-622)

The frontmatter is cut out of the document with the regular expression
`/^---\s*\n([\s\S]*?)\n---\s*\n/` and the remainder of the document is the
body. `fmMatch` below is the operational semantics of that regex: the
lazy capture prefers the shortest capture, the greedy `\s*` before each
required `\n` prefers the longest whitespace run, with backtracking. -/

/-- JS regex `\s` on the characters that occur here (space, tab, CR, LF,
vertical tab, form feed; the exotic Unicode space classes are omitted). -/
def isJsWs (c : Char) : Bool :=
  c == ' ' || c == '\t' || c == '\n' || c == '\r' || c == '\x0b' || c == '\x0c'

/-- Index of the last `'\n'` inside the maximal whitespace run at the head
of `l` — the position the greedy `\s*` backtracks to so that the following
mandatory `\n` can match. -/
def lastNlInRun (l : List Char) : Option Nat :=
  let run := l.takeWhile isJsWs
  match run.reverse.findIdx? (fun c => c = '\n') with
  | some j => some (run.length - 1 - j)
  | none => none

/-- Length consumed by `\n---\s*\n` at the head of `l`, if it matches. -/
def closeLen (l : List Char) : Option Nat :=
  if l.take 4 = ['\n', '-', '-', '-'] then
    match lastNlInRun (l.drop 4) with
    | some k => some (4 + k + 1)
    | none => none
  else none

/-- First position where `\n---\s*\n` matches, with the consumed length. -/
def findClose : List Char → Option (Nat × Nat)
  | [] => none
  | c :: rest =>
    match closeLen (c :: rest) with
    | some m => some (0, m)
    | none =>
      match findClose rest with
      | some (i, m) => some (i + 1, m)
      | none => none

/-- Backtracking over the opening `\s*\n`'s candidate newline positions
(greedy: largest first): for each, look for the earliest close; the
result is `(capture, rest after the whole match)`. -/
def tryOpens : List Nat → List Char → Option (List Char × List Char)
  | [], _ => none
  | k :: ks, rest =>
    let after := rest.drop (k + 1)
    match findClose after with
    | some (i, m) => some (after.take i, after.drop (i + m))
    | none => tryOpens ks rest

/-- Candidate positions for the opening `\s*\n` (newline indices in the
leading whitespace run), in decreasing order. -/
def nlCandidates (l : List Char) : List Nat :=
  let run := l.takeWhile isJsWs
  ((List.range run.length).filter (fun k => run.get? k = some '\n')).reverse

/-- The match of `/^---\s*\n([\s\S]*?)\n---\s*\n/` against a document:
`some (capture, body)` where `body` is the document with the matched
prefix removed (`content.replace(frontmatterRegex, '')`). -/
def fmMatch (content : List Char) : Option (List Char × List Char) :=
  if content.take 3 = ['-', '-', '-'] then
    tryOpens (nlCandidates (content.drop 3)) (content.drop 3)
  else none

/-- Split on `'\n'`, like JS `string.split('\n')` (an empty string gives
one empty line). -/
def splitNl : List Char → List (List Char)
  | [] => [[]]
  | c :: rest =>
    if c = '\n' then [] :: splitNl rest
    else
      match splitNl rest with
      | [] => [[c]]
      | l :: ls => (c :: l) :: ls

/-- Trim JS-whitespace from both ends (JS `string.trim()` on the
characters that occur here). -/
def trimChars (l : List Char) : List Char :=
  ((l.dropWhile isJsWs).reverse.dropWhile isJsWs).reverse

/-- A line that is empty after trimming. -/
def isBlankLine (l : List Char) : Bool :=
  (trimChars l).isEmpty

/-- Split a line at its first mapping colon (a `':'` followed by a space
or ending the line), returning the part before it and the part after it. -/
def splitKeyColon : List Char → Option (List Char × List Char)
  | [] => none
  | c :: rest =>
    if c = ':' then
      (if rest.isEmpty || rest.head? = some ' ' then some ([], rest)
       else
         match splitKeyColon rest with
         | some (k, v) => some (':' :: k, v)
         | none => none)
    else
      match splitKeyColon rest with
      | some (k, v) => some (c :: k, v)
      | none => none

/-- A block-sequence item line `"  - x"` (two-space indent, as produced by
the serializer). -/
def isItemLine (l : List Char) : Bool :=
  l.take 4 = [' ', ' ', '-', ' ']

/-- Frontmatter values that occur in this system: plain string scalars and
lists of plain strings. -/
inductive Yv where
  | str (s : String)
  | list (vs : List String)
deriving DecidableEq, Repr

/-- A parsed YAML document: `null`/undefined, a scalar, a top-level array,
or a mapping. -/
inductive Yaml where
  | null
  | scalar (s : String)
  | arr (vs : List String)
  | map (kvs : List (String × Yv))
deriving DecidableEq, Repr

deriving instance DecidableEq for Except

/-- Classification of one mapping line. -/
inductive LineKind where
  | blank
  | item (s : String)
  | itemBad
  | kv (k : String) (v : Yv)
  | kEmpty (k : String)
  | bad
deriving DecidableEq, Repr

/-- Classify one line of a mapping block: blank, a sequence item, a
`key: value` pair (with `[]` read as the empty list), a `key:` opening a
block sequence, or unparseable. -/
def classifyLine (line : List Char) : LineKind :=
  if isBlankLine line then .blank
  else if isItemLine line then
    (let it := trimChars (line.drop 4)
     if it.isEmpty then .itemBad else .item (String.mk it))
  else
    match splitKeyColon line with
    | none => .bad
    | some (k, v) =>
      let key := trimChars k
      let val := trimChars v
      if key.isEmpty then .bad
      else if val.isEmpty then .kEmpty (String.mk key)
      else if val = ['[', ']'] then .kv (String.mk key) (.list [])
      else .kv (String.mk key) (.str (String.mk val))

/-- Mapping-block parser: processes the lines in order; the second
argument carries an open `key:` block sequence being collected (items in
reverse). A line that fits no production is an error (the YAML grammar
rejects the stream). -/
def parseMapLines :
    List (List Char) → Option (String × List String) → List (String × Yv) →
      Except String (List (String × Yv))
  | [], none, acc => .ok acc
  | [], some (k, its), acc =>
    if its.isEmpty then .error "empty block sequence"
    else .ok (mapSet acc k (.list its.reverse))
  | line :: rest, none, acc =>
    match classifyLine line with
    | .blank => parseMapLines rest none acc
    | .item _ => .error "unexpected sequence item"
    | .itemBad => .error "bad sequence item"
    | .kv k v => parseMapLines rest none (mapSet acc k v)
    | .kEmpty k => parseMapLines rest (some (k, [])) acc
    | .bad => .error "unparseable line"
  | line :: rest, some (k, its), acc =>
    match classifyLine line with
    | .item s => parseMapLines rest (some (k, s :: its)) acc
    | .itemBad => .error "bad sequence item"
    | .blank =>
      if its.isEmpty then .error "empty block sequence"
      else parseMapLines rest none (mapSet acc k (.list its.reverse))
    | .kv k' v =>
      if its.isEmpty then .error "empty block sequence"
      else parseMapLines rest none (mapSet (mapSet acc k (.list its.reverse)) k' v)
    | .kEmpty k' =>
      if its.isEmpty then .error "empty block sequence"
      else parseMapLines rest (some (k', [])) (mapSet acc k (.list its.reverse))
    | .bad => .error "unparseable line"

/-- A top-level array item line (`- x` after trimming). -/
def isArrTopLine (l : List Char) : Bool :=
  (trimChars l).take 2 = ['-', ' '] && !(trimChars ((trimChars l).drop 2)).isEmpty

/-- Modelled from the spec: the primary structured-notation parser
(`yaml.load` of the js-yaml library, which is not part of this
repository). The spec requires it to "support nested maps/lists/scalars"
and to fail on malformed content; this model covers the subset exercised
here — an empty document is `null`, a document of `- x` lines is an
array, a document with no mapping line is a plain scalar, and otherwise
the document is parsed as a mapping of scalars and block sequences, any
unparseable line raising an error (js-yaml throws there). -/
def yamlLoad (s : String) : Except String Yaml :=
  let lines := splitNl s.toList
  let nonblank := lines.filter (fun l => !(isBlankLine l))
  if nonblank.isEmpty then .ok .null
  else if nonblank.all isArrTopLine then
    .ok (.arr (nonblank.map (fun l => String.mk (trimChars ((trimChars l).drop 2)))))
  else if nonblank.all (fun l => (splitKeyColon (trimChars l)).isNone) then
    .ok (.scalar (String.intercalate " " (nonblank.map (fun l => String.mk (trimChars l)))))
  else
    (parseMapLines lines none []).map Yaml.map

/-- Modelled from the spec: `yaml.load(value) || value` applied to a
single-line value by the fallback parser — a plain scalar stays a string,
`[]` is the empty list. -/
def loadScalarValue (v : String) : Yv :=
  if v = "[]" then .list [] else .str v

/-- `FilePropertiesManager.parseSimpleFrontmatter` (src/main.ts lines
507-530): per line, skip blanks and `#` comments, split at the first `:`
(key must be non-empty), trim both parts, best-effort-parse the value. -/
def parseSimpleFrontmatter (fmStr : List Char) : List (String × Yv) :=
  (splitNl fmStr).foldl
    (fun acc line =>
      let t := trimChars line
      if t.isEmpty || t.head? = some '#' then acc
      else
        match t.findIdx? (fun c => c = ':') with
        | some ci =>
          if 0 < ci then
            let key := trimChars (t.take ci)
            let val := trimChars (t.drop (ci + 1))
            mapSet acc (String.mk key) (loadScalarValue (String.mk val))
          else acc
        | none => acc)
    []

/-- `FilePropertiesManager.parseFrontmatter` (src/main.ts lines 464-502):
cut the block out with the regex; `yaml.load` it; accept only a mapping
(`parsed && typeof parsed === 'object' && !Array.isArray(parsed)`), use
an empty map for any other successful parse; on a parse error fall back
to `parseSimpleFrontmatter`. Returns
`(frontmatter, bodyContent, hasValidFrontmatter)`. -/
def parseFrontmatter (content : List Char) :
    List (String × Yv) × List Char × Bool :=
  match fmMatch content with
  | none => ([], content, false)
  | some (cap, body) =>
    match yamlLoad (String.mk cap) with
    | .ok (.map kvs) => (kvs, body, true)
    | .ok _ => ([], body, false)
    | .error _ => (parseSimpleFrontmatter cap, body, true)

/-! ### Serialization (`serializeFrontmatter`, src/main.ts lines 535-571)

`yaml.dump(frontmatter, { flowLevel: -1, sortKeys: true, ... })` emits the
keys sorted with the default comparator (code-unit order), scalars as
`key: value`, non-empty lists as block sequences with a two-space indent,
and empty lists as `key: []`. The catch-branch fallback serializer of the
source is unreachable for plain string/list data and is not modelled. -/

/-- Code-unit order on strings (the JS default sort comparator). -/
def lexLe : List Char → List Char → Bool
  | [], _ => true
  | _ :: _, [] => false
  | a :: as, b :: bs =>
    if a.toNat < b.toNat then true
    else if b.toNat < a.toNat then false
    else lexLe as bs

/-- `lexLe` lifted to `String`. -/
def strLe (a b : String) : Bool :=
  lexLe a.toList b.toList

/-- The ordering used on frontmatter entries by `sortKeys: true`. -/
def keyLe (p q : String × Yv) : Prop :=
  strLe p.1 q.1 = true

instance : DecidableRel keyLe := fun p q => instDecidableEqBool (strLe p.1 q.1) true

/-- Sort the frontmatter entries by key. -/
def sortPairs (fm : List (String × Yv)) : List (String × Yv) :=
  List.insertionSort keyLe fm

/-- The lines a single frontmatter entry serializes to. -/
def itemLine (v : String) : List Char :=
  ' ' :: ' ' :: '-' :: ' ' :: v.toList

/-- The lines a single frontmatter entry serializes to (`yaml.dump`
renders a scalar entry as one `key: value` line, an empty list as
`key: []`, a non-empty list as a `key:` line followed by `  - item`
lines). -/
def pairLines : String × Yv → List (List Char)
  | (k, .str s) => [k.toList ++ ':' :: ' ' :: s.toList]
  | (k, .list []) => [k.toList ++ [':', ' ', '[', ']']]
  | (k, .list (v :: vs)) => (k.toList ++ [':']) :: (v :: vs).map itemLine

/-- Join lines, terminating each with `'\n'`. -/
def joinNl : List (List Char) → List Char
  | [] => []
  | l :: rest => l ++ '\n' :: joinNl rest

/-- Modelled from the spec: `yaml.dump` with sorted keys on the subset of
values this system stores (string scalars and lists of strings). -/
def yamlDump (fm : List (String × Yv)) : List Char :=
  joinNl ((sortPairs fm).flatMap pairLines)

/-- `FilePropertiesManager.serializeFrontmatter` (src/main.ts lines
535-548): the empty map serializes to the empty string, anything else to
`--- \n` + dump + `---\n` (the dump already ends in a newline). -/
def serializeFrontmatter (fm : List (String × Yv)) : List Char :=
  if fm.isEmpty then []
  else '-' :: '-' :: '-' :: '\n' :: (yamlDump fm ++ ('-' :: '-' :: '-' :: '\n' :: []))

/-- JS `delete updatedFrontmatter[field]`. -/
def mapDelete (l : List (String × Yv)) (k : String) : List (String × Yv) :=
  l.filter (fun e => e.1 ≠ k)

/-- `FilePropertiesManager.updateFileProperties` (src/main.ts lines
576-622) on given document content: parse the frontmatter, set the
configured field to the mention list when non-empty (else delete the
field), reassemble, and write only when the new content differs. The
result is `(content after the call, whether a write happened)`. -/
def updateFileProperties (fieldName : String) (content : String)
    (mentions : List String) : String × Bool :=
  let parsed := parseFrontmatter content.toList
  let updatedFrontmatter :=
    if 0 < mentions.length then mapSet parsed.1 fieldName (.list mentions)
    else mapDelete parsed.1 fieldName
  let newContent := String.mk (serializeFrontmatter updatedFrontmatter ++ parsed.2.1)
  if newContent = content then (content, false) else (newContent, true)

/-! ### Helper lemmas -/

theorem containsSub_of_headMatches (l p : List Char) (h : headMatches l p = true) :
    containsSub l p = true := by
  cases l with
  | nil =>
    simp [headMatches] at h
    simp [containsSub, h]
  | cons c rest => simp [containsSub, h]

theorem containsSub_append_left (s t p : List Char) (h : containsSub t p = true) :
    containsSub (s ++ t) p = true := by
  induction s with
  | nil => simpa using h
  | cons c s ih =>
    simp only [List.cons_append, containsSub]
    simp [ih]

theorem headMatches_self_append (p t : List Char) : headMatches (p ++ t) p = true := by
  simp [headMatches, List.take_left]

theorem containsSub_infix (pre mid suf : List Char) :
    containsSub (pre ++ (mid ++ suf)) mid = true :=
  containsSub_append_left pre (mid ++ suf) mid
    (containsSub_of_headMatches (mid ++ suf) mid (headMatches_self_append mid suf))

/-! ### Claim C1 -/

/-- C1: the spec claims that while a synchronizer write is in flight for a
document (`executeUpdate` has put the path into its in-progress marker
set), the vault modify handler's reaction is suppressed for that
document. In the code the handler consults the never-populated legacy
`MentionsPlugin.updatingProperties` set, not the
`FilePropertiesManager.updatingProperties` set that `executeUpdate`
maintains, so with the manager's marker set for `a.md` the handler still
rescans and mutates the index; only the `finally`-block clearing of the
manager's own marker behaves as claimed. -/
theorem modify_handler_not_suppressed_by_inflight_marker :
    (beginManagerUpdate ⟨[], [], []⟩ "a.md").managerUpdating = ["a.md"]
    ∧ (beginManagerUpdate ⟨[], [], []⟩ "a.md").pluginUpdating = []
    ∧ (onModify (beginManagerUpdate ⟨[], [], []⟩ "a.md") "a.md" "hi @anna").mentions
        = [⟨"@anna", "a.md", 3⟩]
    ∧ (onModify (beginManagerUpdate ⟨[], [], []⟩ "a.md") "a.md" "hi @anna").mentions
        ≠ (beginManagerUpdate ⟨[], [], []⟩ "a.md").mentions
    ∧ (endManagerUpdate
        (onModify (beginManagerUpdate ⟨[], [], []⟩ "a.md") "a.md" "hi @anna")
        "a.md").managerUpdating = [] := by
  decide

/-! ### Claim C3 -/

/-- C3 counterexample: on the spec's scenario document the rescan of
`refreshAllMentions` stores only 2 entries, not the claimed 3: the second
occurrence of `@anna.b` is assigned `content.indexOf(match)` — the offset
of the FIRST occurrence — and the duplicate-triple check then drops it. -/
theorem scenario_rescan_has_two_entries_not_three :
    (refreshScanFile [] "doc.md" "Ping @anna.b and @boris-k, also @anna.b again").length = 2
    ∧ ¬ (refreshScanFile [] "doc.md"
          "Ping @anna.b and @boris-k, also @anna.b again").length = 3 := by
  decide

/-- C3 (amended): on the scenario document the regex yields the raw
matches `@anna.b`, `@boris-k`, `@anna.b`, and `extract` normalizes and
deduplicates them to `anna.b`, `boris-k`; but the rescan computes every
offset with `indexOf` from the document start, so the repeated mention
receives offset 5 again (not its true offset 32), the duplicate-triple
check drops it, and the index holds exactly 2 entries for the document,
which collapse to 2 unique texts, both returned by the unique-texts
query. -/
theorem scenario_rescan_entries :
    jsMatchAll "Ping @anna.b and @boris-k, also @anna.b again".toList
      = ["@anna.b".toList, "@boris-k".toList, "@anna.b".toList]
    ∧ extractMentionsFromContent "Ping @anna.b and @boris-k, also @anna.b again"
      = ["anna.b", "boris-k"]
    ∧ refreshScanFile [] "doc.md" "Ping @anna.b and @boris-k, also @anna.b again"
      = [⟨"@anna.b", "doc.md", 5⟩, ⟨"@boris-k", "doc.md", 17⟩]
    ∧ uniqueMentionTexts
        (refreshScanFile [] "doc.md" "Ping @anna.b and @boris-k, also @anna.b again")
      = ["@anna.b", "@boris-k"] := by
  decide

/-! ### Claim C5 -/

/-- C5: scheduling a second update for the same document while the first
is still pending clears the first timeout and replaces the queued
payload: only the second timer remains, firing the first (cleared) timer
id is a no-op, and firing the remaining timer produces exactly one
synchronizer invocation carrying the second mention set; the superseded
first payload is never written. -/
theorem debounce_coalesces_to_latest (p : String) (m1 m2 : List String) (t1 t2 : Nat) :
    (scheduleUpdate true (scheduleUpdate true initScheduler p m1 t1) p m2 t2).activeTimers
      = [(1, p, t2)]
    ∧ (scheduleUpdate true (scheduleUpdate true initScheduler p m1 t1) p m2 t2).pendingUpdates
      = [(p, 1)]
    ∧ mapGet (scheduleUpdate true (scheduleUpdate true initScheduler p m1 t1) p m2 t2).updateQueue p
      = some (m2, t2)
    ∧ fireTimer (scheduleUpdate true (scheduleUpdate true initScheduler p m1 t1) p m2 t2) 0
      = scheduleUpdate true (scheduleUpdate true initScheduler p m1 t1) p m2 t2
    ∧ (fireTimer (scheduleUpdate true (scheduleUpdate true initScheduler p m1 t1) p m2 t2) 1).invocations
      = [(p, m2)] := by
  simp [scheduleUpdate, initScheduler, mapSet, mapGet, fireTimer, List.find?, List.filter]

/-- C5 witness at a concrete instance. -/
theorem debounce_coalesces_to_latest_witness :
    (fireTimer (scheduleUpdate true
        (scheduleUpdate true initScheduler "a.md" ["x"] 10) "a.md" ["y", "z"] 20) 1).invocations
      = [("a.md", ["y", "z"])] :=
  (debounce_coalesces_to_latest "a.md" ["x"] ["y", "z"] 10 20).2.2.2.2

/-! ### Claim C6 -/

/-- C6: when every attempt fails, `executeUpdate` performs the initial
attempt plus exactly `MAX_RETRIES = 3` retries, sleeping
`RETRY_DELAY * attemptNumber` (500, 1000, 1500 ms) before each retry, and
after exhausting the retries surfaces a user-visible notice that contains
the document name and the failure reason, with no further retry. -/
theorem retry_policy_linear_backoff_and_notice (succeeds : Nat → Bool)
    (fileName msg : String) (h : ∀ n, succeeds n = false) :
    executeUpdateRun succeeds fileName msg 0 =
      ⟨false, 1 + MAX_RETRIES,
        [RETRY_DELAY * 1, RETRY_DELAY * 2, RETRY_DELAY * 3],
        some (failureNotice fileName msg)⟩
    ∧ containsSub (failureNotice fileName msg).toList fileName.toList = true
    ∧ containsSub (failureNotice fileName msg).toList msg.toList = true := by
  refine ⟨?_, ?_, ?_⟩
  · simp [executeUpdateRun, MAX_RETRIES, RETRY_DELAY, executeUpdateAux, h]
  · have : (failureNotice fileName msg).toList
        = "Failed to update properties for ".toList ++ (fileName.toList ++ (": " ++ msg).toList) := by
      simp [failureNotice, String.toList]
    rw [this]
    exact containsSub_infix _ _ _
  · have : (failureNotice fileName msg).toList
        = ("Failed to update properties for " ++ fileName ++ ": ").toList ++ (msg.toList ++ []) := by
      simp [failureNotice, String.toList]
    rw [this]
    exact containsSub_infix _ _ _

/-- C6 witness: a concrete always-failing run. -/
theorem retry_policy_linear_backoff_and_notice_witness :
    executeUpdateRun (fun _ => false) "note.md" "write error" 0 =
      ⟨false, 1 + MAX_RETRIES, [RETRY_DELAY * 1, RETRY_DELAY * 2, RETRY_DELAY * 3],
        some (failureNotice "note.md" "write error")⟩
    ∧ containsSub (failureNotice "note.md" "write error").toList "note.md".toList = true :=
  ⟨(retry_policy_linear_backoff_and_notice (fun _ => false) "note.md" "write error"
      (fun _ => rfl)).1,
   (retry_policy_linear_backoff_and_notice (fun _ => false) "note.md" "write error"
      (fun _ => rfl)).2.1⟩

/-! ### Map lemmas for the merge step -/

theorem mapGet_mapSet_self (l : List (String × Yv)) (k : String) (v : Yv) :
    mapGet (mapSet l k v) k = some v := by
  induction l with
  | nil => simp [mapSet, mapGet, List.find?]
  | cons e rest ih =>
    by_cases h : e.1 = k
    · simp [mapSet, h, mapGet, List.find?]
    · simp only [mapSet]
      rw [if_neg h]
      simpa [mapGet, List.find?, h] using ih

theorem mapGet_mapSet_ne (l : List (String × Yv)) (k k' : String) (v : Yv)
    (h : k' ≠ k) : mapGet (mapSet l k v) k' = mapGet l k' := by
  have hkk : ¬ (k = k') := fun hh => h hh.symm
  induction l with
  | nil => simp [mapSet, mapGet, List.find?, hkk]
  | cons e rest ih =>
    by_cases he : e.1 = k
    · subst he
      simp [mapSet, mapGet, List.find?, hkk]
    · simp only [mapSet]
      rw [if_neg he]
      by_cases he' : e.1 = k'
      · simp [mapGet, List.find?, he']
      · simpa [mapGet, List.find?, he'] using ih

theorem mapGet_mapDelete_self (l : List (String × Yv)) (k : String) :
    mapGet (mapDelete l k) k = none := by
  induction l with
  | nil => simp [mapDelete, mapGet, List.find?]
  | cons e rest ih =>
    by_cases he : e.1 = k
    · simpa [mapDelete, List.filter, he] using ih
    · simp [mapDelete, List.filter, he, mapGet, List.find?]

theorem mapGet_mapDelete_ne (l : List (String × Yv)) (k k' : String)
    (h : k' ≠ k) : mapGet (mapDelete l k) k' = mapGet l k' := by
  induction l with
  | nil => simp [mapDelete, mapGet, List.find?]
  | cons e rest ih =>
    by_cases he : e.1 = k
    · have hknk : ¬ (k = k') := fun hh => h hh.symm
      simpa [mapDelete, List.filter, mapGet, List.find?, he, hknk] using ih
    · by_cases he' : e.1 = k'
      · simp [mapDelete, List.filter, he, he', h, mapGet, List.find?]
      · simpa [mapDelete, List.filter, he, he', mapGet, List.find?] using ih

/-! ### Claim C2 -/

/-- C2: the merge step of `updateFileProperties` with a non-empty mention
set only touches the configured field: every other key keeps its value
and the field ends up holding exactly the new mention list; the spec's
concrete block `{title: X, mentions: [a]}` synced with `[b, c]` keeps
`title` and rewrites `mentions` (sorted-key serialization). -/
theorem metadata_sync_touches_only_configured_field :
    (∀ (fm : List (String × Yv)) (field k : String) (ms : List String),
      ms ≠ [] → k ≠ field →
        mapGet (if 0 < ms.length then mapSet fm field (.list ms) else mapDelete fm field) k
          = mapGet fm k)
    ∧ (∀ (fm : List (String × Yv)) (field : String) (ms : List String),
        ms ≠ [] →
          mapGet (if 0 < ms.length then mapSet fm field (.list ms) else mapDelete fm field) field
            = some (.list ms))
    ∧ updateFileProperties "mentions" "---\nmentions:\n  - a\ntitle: X\n---\nbody" ["b", "c"]
        = ("---\nmentions:\n  - b\n  - c\ntitle: X\n---\nbody", true) := by
  refine ⟨?_, ?_, by decide⟩
  · intro fm field k ms hms hk
    rw [if_pos (by simpa [List.length_pos] using hms)]
    exact mapGet_mapSet_ne fm field k (.list ms) hk
  · intro fm field ms hms
    rw [if_pos (by simpa [List.length_pos] using hms)]
    exact mapGet_mapSet_self fm field (.list ms)

/-- C2 witness. -/
theorem metadata_sync_touches_only_configured_field_witness :
    mapGet (if 0 < (["b", "c"] : List String).length
        then mapSet [("title", Yv.str "X"), ("mentions", Yv.list ["a"])] "mentions" (.list ["b", "c"])
        else mapDelete [("title", Yv.str "X"), ("mentions", Yv.list ["a"])] "mentions") "title"
      = some (Yv.str "X")
    ∧ mapGet (if 0 < (["b", "c"] : List String).length
        then mapSet [("title", Yv.str "X"), ("mentions", Yv.list ["a"])] "mentions" (.list ["b", "c"])
        else mapDelete [("title", Yv.str "X"), ("mentions", Yv.list ["a"])] "mentions") "mentions"
      = some (Yv.list ["b", "c"]) := by
  refine ⟨?_, ?_⟩
  · rw [metadata_sync_touches_only_configured_field.1
      [("title", Yv.str "X"), ("mentions", Yv.list ["a"])] "mentions" "title" ["b", "c"]
      (by decide) (by decide)]
    decide
  · exact metadata_sync_touches_only_configured_field.2.1
      [("title", Yv.str "X"), ("mentions", Yv.list ["a"])] "mentions" ["b", "c"] (by decide)

/-! ### Claim C7 -/

/-- C7: syncing an empty mention set deletes the configured field from
the metadata map (the key is absent afterwards, not present with an empty
collection) while every other key keeps its value; concretely, a block
that also holds `title` is still emitted, just without the field, and a
block holding only the field disappears entirely. -/
theorem empty_mention_set_removes_field :
    (∀ (fm : List (String × Yv)) (field : String),
      mapGet (if 0 < ([] : List String).length then mapSet fm field (.list []) else mapDelete fm field) field
        = none)
    ∧ (∀ (fm : List (String × Yv)) (field k : String), k ≠ field →
        mapGet (mapDelete fm field) k = mapGet fm k)
    ∧ updateFileProperties "mentions" "---\nmentions:\n  - a\ntitle: X\n---\nbody" []
        = ("---\ntitle: X\n---\nbody", true)
    ∧ updateFileProperties "mentions" "---\nmentions:\n  - a\n---\nbody" []
        = ("body", true) := by
  refine ⟨?_, ?_, by decide, by decide⟩
  · intro fm field
    simpa using mapGet_mapDelete_self fm field
  · intro fm field k hk
    exact mapGet_mapDelete_ne fm field k hk

/-- C7 witness. -/
theorem empty_mention_set_removes_field_witness :
    mapGet (mapDelete [("title", Yv.str "X"), ("mentions", Yv.list ["a"])] "mentions") "title"
      = some (Yv.str "X") := by
  rw [empty_mention_set_removes_field.2.1
    [("title", Yv.str "X"), ("mentions", Yv.list ["a"])] "mentions" "title" (by decide)]
  decide

/-! ### Claim C10 -/

/-- Whether a parsed YAML document is a mapping (the only shape
`parseFrontmatter` accepts). -/
def isYamlMap : Yaml → Bool
  | .map _ => true
  | _ => false

/-- C10: when the block cut out of the document parses successfully to a
non-mapping value (array, scalar or null), `parseFrontmatter` returns the
empty map with `hasValidFrontmatter = false` — the line-oriented fallback
is not consulted; the fallback result is used exactly when the parse
raises an error. Consequently a subsequent sync with a non-empty mention
set rewrites the block to hold only the configured field, discarding the
array block's original content. -/
theorem nonmap_frontmatter_yields_empty_map :
    (∀ (content cap body : List Char) (v : Yaml),
      fmMatch content = some (cap, body) →
      yamlLoad (String.mk cap) = .ok v →
      isYamlMap v = false →
      parseFrontmatter content = ([], body, false))
    ∧ (∀ (content cap body : List Char) (e : String),
        fmMatch content = some (cap, body) →
        yamlLoad (String.mk cap) = .error e →
        parseFrontmatter content = (parseSimpleFrontmatter cap, body, true))
    ∧ updateFileProperties "mentions" "---\n- a\n---\nbody" ["m"]
        = ("---\nmentions:\n  - m\n---\nbody", true)
    ∧ yamlLoad "- a" = .ok (.arr ["a"]) := by
  refine ⟨?_, ?_, by decide, by decide⟩
  · intro content cap body v hm hl hv
    cases v <;> simp_all [parseFrontmatter, isYamlMap]
  · intro content cap body e hm hl
    simp [parseFrontmatter, hm, hl]

/-- C10 witness: a concrete array-valued block and a concrete
parse-error block. -/
theorem nonmap_frontmatter_yields_empty_map_witness :
    parseFrontmatter "---\n- a\n---\nbody".toList = ([], "body".toList, false)
    ∧ parseFrontmatter "---\ntitle: X\njunk\n---\nbody".toList
        = (parseSimpleFrontmatter "title: X\njunk".toList, "body".toList, true) := by
  refine ⟨?_, ?_⟩
  · exact nonmap_frontmatter_yields_empty_map.1 _ "- a".toList "body".toList (.arr ["a"])
      (by decide) (by decide) (by decide)
  · exact nonmap_frontmatter_yields_empty_map.2.1 _ "title: X\njunk".toList "body".toList
      "unparseable line" (by decide) (by decide)

/-! ### Claim C8: extraction shape -/

/-- Whether the text contains an `@` immediately followed by an allowed
character — i.e. whether the regex has any match at all. -/
def hasMentionRun : List Char → Bool
  | [] => false
  | [_] => false
  | a :: b :: rest => (a = '@' && isAllowedMentionChar b) || hasMentionRun (b :: rest)

theorem hasMentionRun_tail (c : Char) (t : List Char)
    (h : hasMentionRun (c :: t) = false) : hasMentionRun t = false := by
  cases t with
  | nil => rfl
  | cons d u =>
    simp only [hasMentionRun, Bool.or_eq_false_iff] at h
    exact h.2

theorem scanAux_none_of_no_run (l : List Char) (h : hasMentionRun l = false) :
    scanMentionsAux l none = [] := by
  induction l with
  | nil => rfl
  | cons c t ih =>
    by_cases hc : c = '@'
    · subst hc
      cases t with
      | nil => simp [scanMentionsAux]
      | cons d u =>
        have hd : isAllowedMentionChar d = false := by
          have h' := h
          simp only [hasMentionRun, Bool.or_eq_false_iff, Bool.and_eq_false_iff] at h'
          rcases h'.1 with h1 | h1
          · simp at h1
          · exact h1
        have e0 : scanMentionsAux ('@' :: d :: u) none = scanMentionsAux (d :: u) (some []) := by
          simp [scanMentionsAux]
        have e1 : scanMentionsAux (d :: u) (some []) = scanMentionsAux (d :: u) none := by
          simp [scanMentionsAux, hd]
        rw [e0, e1]
        exact ih (hasMentionRun_tail _ _ h)
    · have e0 : scanMentionsAux (c :: t) none = scanMentionsAux t none := by
        simp [scanMentionsAux, hc]
      rw [e0]
      exact ih (hasMentionRun_tail _ _ h)

theorem scanAux_shape (l : List Char) :
    ∀ (st : Option (List Char)),
      (∀ r, st = some r → r.all isAllowedMentionChar = true) →
      ∀ m ∈ scanMentionsAux l st,
        ∃ run, m = '@' :: run ∧ run ≠ [] ∧ run.all isAllowedMentionChar = true := by
  induction l with
  | nil =>
    intro st hst m hm
    cases st with
    | none => simp [scanMentionsAux] at hm
    | some r =>
      rcases Bool.eq_false_or_eq_true r.isEmpty with hr | hr
      · simp [scanMentionsAux, hr] at hm
      · simp only [scanMentionsAux, hr, Bool.false_eq_true, if_false,
          List.mem_singleton] at hm
        refine ⟨r.reverse, hm, by simpa [List.isEmpty_iff] using hr, ?_⟩
        have hall := hst r rfl
        rw [List.all_eq_true] at hall ⊢
        intro x hx
        exact hall x (List.mem_reverse.mp hx)
  | cons c t ih =>
    intro st hst m hm
    have hsome :
        ∀ m ∈ (if c = '@' then scanMentionsAux t (some []) else scanMentionsAux t none),
          ∃ run, m = '@' :: run ∧ run ≠ [] ∧ run.all isAllowedMentionChar = true := by
      intro m hm
      by_cases hc : c = '@'
      · rw [if_pos hc] at hm
        exact ih (some []) (fun r hr => by cases hr; rfl) m hm
      · rw [if_neg hc] at hm
        exact ih none (fun r hr => by cases hr) m hm
    cases st with
    | none =>
      have e0 : scanMentionsAux (c :: t) none
          = (if c = '@' then scanMentionsAux t (some []) else scanMentionsAux t none) := by
        by_cases hc : c = '@' <;> simp [scanMentionsAux, hc]
      rw [e0] at hm
      exact hsome m hm
    | some r =>
      rcases Bool.eq_false_or_eq_true (isAllowedMentionChar c) with ha | ha
      · have e0 : scanMentionsAux (c :: t) (some r)
            = scanMentionsAux t (some (c :: r)) := by
          simp [scanMentionsAux, ha]
        rw [e0] at hm
        refine ih (some (c :: r)) ?_ m hm
        intro r' hr'
        cases hr'
        have hall := hst r rfl
        rw [List.all_eq_true] at hall ⊢
        intro x hx
        rcases List.mem_cons.mp hx with hx | hx
        · rw [hx]
          exact ha
        · exact hall x hx
      · rcases Bool.eq_false_or_eq_true r.isEmpty with hr | hr
        · have e0 : scanMentionsAux (c :: t) (some r)
              = (if c = '@' then scanMentionsAux t (some []) else scanMentionsAux t none) := by
            simp [scanMentionsAux, ha, hr]
          rw [e0] at hm
          exact hsome m hm
        · have e0 : scanMentionsAux (c :: t) (some r)
              = ('@' :: r.reverse) ::
                  (if c = '@' then scanMentionsAux t (some []) else scanMentionsAux t none) := by
            simp [scanMentionsAux, ha, hr]
          rw [e0, List.mem_cons] at hm
          rcases hm with hm | hm
          · refine ⟨r.reverse, hm, by simpa [List.isEmpty_iff] using hr, ?_⟩
            have hall := hst r rfl
            rw [List.all_eq_true] at hall ⊢
            intro x hx
            exact hall x (List.mem_reverse.mp hx)
          · exact hsome m hm

theorem stripTrailingPunct_all (l : List Char) (p : Char → Bool)
    (h : l.all p = true) : (stripTrailingPunct l).all p = true := by
  rw [List.all_eq_true] at h ⊢
  intro x hx
  refine h x ?_
  have hx1 : x ∈ l.reverse.dropWhile isTrailPunct := List.mem_reverse.mp hx
  have hx2 : x ∈ l.reverse := (List.dropWhile_sublist isTrailPunct).mem hx1
  exact List.mem_reverse.mp hx2

theorem head?_dropWhile_not (p : Char → Bool) (l : List Char) (c : Char)
    (h : (l.dropWhile p).head? = some c) : p c = false := by
  induction l with
  | nil => simp [List.dropWhile] at h
  | cons x t ih =>
    by_cases hx : p x
    · rw [List.dropWhile_cons_of_pos hx] at h
      exact ih h
    · rw [List.dropWhile_cons_of_neg hx] at h
      simp only [List.head?_cons, Option.some.injEq] at h
      subst h
      simpa using hx

theorem stripTrailingPunct_last (l : List Char) (c : Char)
    (h : (stripTrailingPunct l).getLast? = some c) : isTrailPunct c = false := by
  unfold stripTrailingPunct at h
  rw [List.getLast?_reverse] at h
  exact head?_dropWhile_not isTrailPunct l.reverse c h

theorem mem_foldl_dedup (l acc : List String) (x : String)
    (h : x ∈ l.foldl (fun acc a => if a ∈ acc then acc else acc ++ [a]) acc) :
    x ∈ acc ∨ x ∈ l := by
  induction l generalizing acc with
  | nil => exact Or.inl (by simpa using h)
  | cons a t ih =>
    simp only [List.foldl_cons] at h
    rcases ih _ h with hx | hx
    · by_cases hmem : a ∈ acc
      · rw [if_pos hmem] at hx
        exact Or.inl hx
      · rw [if_neg hmem] at hx
        rcases List.mem_append.mp hx with hx | hx
        · exact Or.inl hx
        · exact Or.inr (by simp [List.mem_singleton.mp hx])
    · exact Or.inr (List.mem_cons_of_mem a hx)

theorem mem_dedupFirst_imp (l : List String) (x : String) (h : x ∈ dedupFirst l) :
    x ∈ l := by
  rcases mem_foldl_dedup l [] x h with hx | hx
  · simp at hx
  · exact hx

/-- C8 counterexample: the claim says every returned match's normalized
form starts with `@`; `extractMentionsFromContent` strips the leading `@`
(`match.substring(1)`), so a returned mention does not start with `@`. -/
theorem extracted_mention_lacks_leading_at :
    extractMentionsFromContent "hi @anna" = ["anna"]
    ∧ ¬ ("anna".toList.head? = some '@') := by
  decide

/-- C8 (amended): a text containing no `@` immediately followed by an
allowed character yields the empty list (not an error); and every
returned string is the normalized mention text WITHOUT the leading `@`
(the `@` is stripped): it is non-empty, consists only of the allowed
characters (no digits, no uppercase, no other symbols, in particular no
`@`), and does not end in a punctuation character from `. , ! ? ; :`
(the trailing run is stripped). -/
theorem mention_extraction_normalized_shape :
    (∀ content : String, hasMentionRun content.toList = false →
      extractMentionsFromContent content = [])
    ∧ (∀ (content m : String), m ∈ extractMentionsFromContent content →
        m ≠ ""
        ∧ m.toList.all isAllowedMentionChar = true
        ∧ (∀ c, m.toList.getLast? = some c → isTrailPunct c = false)
        ∧ ¬ '@' ∈ m.toList) := by
  constructor
  · intro content h
    have e0 : jsMatchAll content.data = [] := scanAux_none_of_no_run content.data h
    simp [extractMentionsFromContent, e0, dedupFirst]
  · intro content m hmem
    have h1 : m ∈ (((jsMatchAll content.toList).map
        (fun mm => stripTrailingPunct (mm.drop 1))).filter
          (fun x => 0 < x.length)).map String.mk := by
      apply mem_dedupFirst_imp
      simpa [extractMentionsFromContent] using hmem
    rcases List.mem_map.mp h1 with ⟨lc, hlc, hmk⟩
    rcases List.mem_filter.mp hlc with ⟨hlc2, hlen⟩
    rcases List.mem_map.mp hlc2 with ⟨mm, hmm, hstrip⟩
    rcases scanAux_shape content.toList none (fun r hr => by cases hr) mm hmm with
      ⟨run, hrun, _, hall⟩
    have hdrop : mm.drop 1 = run := by
      rw [hrun]
      rfl
    have hlceq : lc = stripTrailingPunct run := by
      rw [← hstrip, hdrop]
    have htl : m.toList = lc := by
      rw [← hmk]
      rfl
    have hlcall : lc.all isAllowedMentionChar = true := by
      rw [hlceq]
      exact stripTrailingPunct_all run isAllowedMentionChar hall
    have hlcne : lc ≠ [] := by
      intro hn
      rw [hn] at hlen
      simp at hlen
    refine ⟨?_, ?_, ?_, ?_⟩
    · intro hemp
      apply hlcne
      rw [← htl, hemp]
      rfl
    · rw [htl]
      exact hlcall
    · intro c hc
      rw [htl, hlceq] at hc
      exact stripTrailingPunct_last run c hc
    · intro hat
      rw [htl] at hat
      have : isAllowedMentionChar '@' = true :=
        List.all_eq_true.mp hlcall '@' hat
      simp [isAllowedMentionChar] at this

/-- C8 witness. -/
theorem mention_extraction_normalized_shape_witness :
    extractMentionsFromContent "no mentions 123 HERE" = []
    ∧ ("anna" ≠ ""
       ∧ "anna".toList.all isAllowedMentionChar = true
       ∧ (∀ c, "anna".toList.getLast? = some c → isTrailPunct c = false)
       ∧ ¬ '@' ∈ "anna".toList) :=
  ⟨mention_extraction_normalized_shape.1 "no mentions 123 HERE" (by decide),
   mention_extraction_normalized_shape.2 "hi @anna." "anna" (by decide)⟩

/-! ### Claim C9: autocomplete suggestions -/

/-- JS `String.prototype.toLowerCase` on the character ranges that occur
here: ASCII `A-Z`, Cyrillic `А-Я` (U+0410..U+042F) and `Ё` (U+0401). -/
def toLowerJS (c : Char) : Char :=
  if 0x41 ≤ c.toNat && c.toNat ≤ 0x5A then Char.ofNat (c.toNat + 0x20)
  else if 0x410 ≤ c.toNat && c.toNat ≤ 0x42F then Char.ofNat (c.toNat + 0x20)
  else if c.toNat = 0x401 then Char.ofNat 0x451
  else c

/-- JS `s.toLowerCase()`. -/
def lowerJS (s : String) : String :=
  String.mk (s.toList.map toLowerJS)

/-- The string order used by the JS default `Array.prototype.sort`
comparator. -/
def sugLe (a b : String) : Prop :=
  strLe a b = true

instance : DecidableRel sugLe := fun a b => instDecidableEqBool (strLe a b) true

/-- `MentionSuggest.getSuggestions` (src/main.ts lines 171-192): lowercase
the query, collect the unique mention texts of the index, keep those
whose lowercase form contains the query as a substring, and sort. -/
def getSuggestions (query : String) (mentions : List Mention) : List String :=
  let q := lowerJS query
  let uniqueMentions := dedupFirst (mentions.map (fun m => m.text))
  let suggestions := uniqueMentions.filter
    (fun mention => containsSub (lowerJS mention).toList q.toList)
  List.insertionSort sugLe suggestions

theorem lexLe_total (a : List Char) : ∀ b, lexLe a b = true ∨ lexLe b a = true := by
  induction a with
  | nil => intro b; exact Or.inl rfl
  | cons x xs ih =>
    intro b
    cases b with
    | nil => exact Or.inr rfl
    | cons y ys =>
      rcases Nat.lt_trichotomy x.toNat y.toNat with h | h | h
      · exact Or.inl (by simp [lexLe, h])
      · have hyx : ¬ y.toNat < x.toNat := by omega
        have hxy : ¬ x.toNat < y.toNat := by omega
        rcases ih ys with hh | hh
        · exact Or.inl (by simp [lexLe, hxy, hyx, hh])
        · exact Or.inr (by simp [lexLe, hxy, hyx, hh])
      · exact Or.inr (by simp [lexLe, h])

theorem lexLe_trans (a : List Char) :
    ∀ b c, lexLe a b = true → lexLe b c = true → lexLe a c = true := by
  induction a with
  | nil => intro b c _ _; rfl
  | cons x xs ih =>
    intro b c hab hbc
    cases b with
    | nil => simp [lexLe] at hab
    | cons y ys =>
      cases c with
      | nil => simp [lexLe] at hbc
      | cons z zs =>
        simp only [lexLe] at hab hbc ⊢
        by_cases hxy : x.toNat < y.toNat
        · by_cases hyz : y.toNat < z.toNat
          · rw [if_pos (by omega)]
          · rw [if_neg hyz] at hbc
            by_cases hzy : z.toNat < y.toNat
            · rw [if_pos hzy] at hbc
              simp at hbc
            · rw [if_neg hzy] at hbc
              rw [if_pos (by omega)]
        · rw [if_neg hxy] at hab
          by_cases hyx : y.toNat < x.toNat
          · rw [if_pos hyx] at hab
            simp at hab
          · rw [if_neg hyx] at hab
            by_cases hyz : y.toNat < z.toNat
            · rw [if_pos (by omega)]
            · rw [if_neg hyz] at hbc
              by_cases hzy : z.toNat < y.toNat
              · rw [if_pos hzy] at hbc
                simp at hbc
              · rw [if_neg hzy] at hbc
                rw [if_neg (by omega), if_neg (by omega)]
                exact ih ys zs hab hbc

instance : IsTotal String sugLe :=
  ⟨fun a b => lexLe_total a.toList b.toList⟩

instance : IsTrans String sugLe :=
  ⟨fun a b c hab hbc => lexLe_trans a.toList b.toList c.toList hab hbc⟩

theorem mem_foldl_dedup_intro (l acc : List String) (x : String)
    (h : x ∈ acc ∨ x ∈ l) :
    x ∈ l.foldl (fun acc a => if a ∈ acc then acc else acc ++ [a]) acc := by
  induction l generalizing acc with
  | nil =>
    rcases h with h | h
    · simpa using h
    · simp at h
  | cons a t ih =>
    simp only [List.foldl_cons]
    apply ih
    have hsub : ∀ y, y ∈ acc → y ∈ (if a ∈ acc then acc else acc ++ [a]) := by
      intro y hy
      by_cases hmem : a ∈ acc
      · rw [if_pos hmem]; exact hy
      · rw [if_neg hmem]; exact List.mem_append_left _ hy
    rcases h with h | h
    · exact Or.inl (hsub x h)
    · rcases List.mem_cons.mp h with h | h
      · subst h
        by_cases hmem : x ∈ acc
        · exact Or.inl (hsub x hmem)
        · refine Or.inl ?_
          rw [if_neg hmem]
          exact List.mem_append_right _ (by simp)
      · exact Or.inr h

theorem mem_dedupFirst_iff (l : List String) (x : String) :
    x ∈ dedupFirst l ↔ x ∈ l :=
  ⟨mem_dedupFirst_imp l x, fun h => mem_foldl_dedup_intro l [] x (Or.inr h)⟩

theorem nodup_foldl_dedup (l : List String) (acc : List String) (hacc : acc.Nodup) :
    (l.foldl (fun acc a => if a ∈ acc then acc else acc ++ [a]) acc).Nodup := by
  induction l generalizing acc with
  | nil => simpa using hacc
  | cons a t ih =>
    simp only [List.foldl_cons]
    apply ih
    by_cases hmem : a ∈ acc
    · rw [if_pos hmem]; exact hacc
    · rw [if_neg hmem]
      simpa [List.nodup_append] using ⟨hacc, hmem⟩

theorem nodup_dedupFirst (l : List String) : (dedupFirst l).Nodup :=
  nodup_foldl_dedup l [] (by simp)

/-- C9: `getSuggestions` returns exactly the texts of the mention index
that contain the lowercased query as a substring of their lowercased
form (not prefix-only), deduplicated and sorted ascending in the JS
code-unit order; in particular the query `an` against the unique set
`{anna, boris, anatoly}` returns `[anatoly, anna]`. -/
theorem autocomplete_substring_sorted_dedup :
    (∀ (query : String) (mentions : List Mention) (s : String),
      s ∈ getSuggestions query mentions ↔
        ((∃ m, m ∈ mentions ∧ m.text = s)
          ∧ containsSub (lowerJS s).toList (lowerJS query).toList = true))
    ∧ (∀ (query : String) (mentions : List Mention),
        (getSuggestions query mentions).Sorted sugLe)
    ∧ (∀ (query : String) (mentions : List Mention),
        (getSuggestions query mentions).Nodup)
    ∧ getSuggestions "an" [⟨"anna", "f.md", 0⟩, ⟨"boris", "f.md", 6⟩, ⟨"anatoly", "f.md", 12⟩]
        = ["anatoly", "anna"] := by
  refine ⟨?_, ?_, ?_, by decide⟩
  · intro query mentions s
    simp only [getSuggestions, List.mem_insertionSort, List.mem_filter,
      mem_dedupFirst_iff, List.mem_map]
  · intro query mentions
    exact List.sorted_insertionSort sugLe _
  · intro query mentions
    have h1 : (dedupFirst (mentions.map (fun m => m.text))).Nodup :=
      nodup_dedupFirst _
    have h2 := List.Nodup.filter
      (fun mention => containsSub (lowerJS mention).toList (lowerJS query).toList) h1
    exact ((List.perm_insertionSort sugLe _).nodup_iff).mpr h2

/-- C9 witness. -/
theorem autocomplete_substring_sorted_dedup_witness :
    "anna" ∈ getSuggestions "AN"
      [⟨"anna", "f.md", 0⟩, ⟨"boris", "f.md", 6⟩, ⟨"anatoly", "f.md", 12⟩] :=
  (autocomplete_substring_sorted_dedup.1 "AN"
      [⟨"anna", "f.md", 0⟩, ⟨"boris", "f.md", 6⟩, ⟨"anatoly", "f.md", 12⟩] "anna").mpr
    ⟨⟨⟨"anna", "f.md", 0⟩, by simp, rfl⟩, by decide⟩

/-! ### Well-formedness for the round-trip development (claim C4)

The serialize-then-reparse stability argument needs keys, scalar values
and list items made of "plain" characters: no whitespace, none of the
characters that the YAML notation itself interprets on a line. -/

/-- A character that neither the block grammar nor quoting interprets. -/
def safeChar (c : Char) : Bool :=
  !(isJsWs c) && !(c = ':') && !(c = '#') && !(c = '[') && !(c = ']')
    && !(c = '"') && !(c = ',')

/-- A non-empty string of safe characters. -/
def wfName (s : String) : Bool :=
  !(s.toList.isEmpty) && s.toList.all safeChar

/-- Well-formed frontmatter values. -/
def wfVal : Yv → Bool
  | .str s => wfName s
  | .list vs => vs.all wfName

/-- Well-formed frontmatter maps. -/
def wfFm (fm : List (String × Yv)) : Bool :=
  fm.all (fun p => wfName p.1 && wfVal p.2)

theorem safeChar_not_ws (c : Char) (h : safeChar c = true) : isJsWs c = false := by
  simp only [safeChar, Bool.and_eq_true, Bool.not_eq_true'] at h
  exact h.1.1.1.1.1.1

theorem safeChar_ne (c : Char) (h : safeChar c = true) :
    c ≠ ':' ∧ c ≠ '#' ∧ c ≠ '[' ∧ c ≠ ']' ∧ c ≠ '"' ∧ c ≠ ',' := by
  simp only [safeChar, Bool.and_eq_true, Bool.not_eq_true', decide_eq_false_iff_not] at h
  exact ⟨h.1.1.1.1.1.2, h.1.1.1.1.2, h.1.1.1.2, h.1.1.2, h.1.2, h.2⟩

theorem mem_dropWhile_of_not (p : Char → Bool) (l : List Char) (c : Char)
    (hc : c ∈ l) (hp : p c = false) : c ∈ l.dropWhile p := by
  induction l with
  | nil => simp at hc
  | cons a t ih =>
    by_cases ha : p a
    · rw [List.dropWhile_cons_of_pos ha]
      rcases List.mem_cons.mp hc with h | h
      · rw [h] at hp
        rw [ha] at hp
        simp at hp
      · exact ih h
    · rw [List.dropWhile_cons_of_neg ha]
      exact hc

theorem trimChars_ne_nil (l : List Char) (c : Char) (hc : c ∈ l)
    (hw : isJsWs c = false) : trimChars l ≠ [] := by
  intro hnil
  unfold trimChars at hnil
  have h1 : (l.dropWhile isJsWs).reverse.dropWhile isJsWs = [] := by
    have := congrArg List.reverse hnil
    simpa using this
  have h2 : ∀ x ∈ (l.dropWhile isJsWs).reverse, isJsWs x :=
    List.dropWhile_eq_nil_iff.mp h1
  have h3 : c ∈ l.dropWhile isJsWs := mem_dropWhile_of_not isJsWs l c hc hw
  have := h2 c (List.mem_reverse.mpr h3)
  rw [hw] at this
  simp at this

theorem trimChars_eq_self (l : List Char)
    (hh : ∀ c, l.head? = some c → isJsWs c = false)
    (hl : ∀ c, l.getLast? = some c → isJsWs c = false) :
    trimChars l = l := by
  have h1 : l.dropWhile isJsWs = l := by
    cases l with
    | nil => rfl
    | cons a t =>
      rw [List.dropWhile_cons_of_neg]
      rw [hh a rfl]
      simp
  unfold trimChars
  rw [h1]
  have h2 : l.reverse.dropWhile isJsWs = l.reverse := by
    cases hr : l.reverse with
    | nil => rfl
    | cons a t =>
      rw [List.dropWhile_cons_of_neg]
      have : l.getLast? = some a := by
        rw [← List.head?_reverse, hr]
        rfl
      rw [hl a this]
      simp
  rw [h2, List.reverse_reverse]

theorem mem_of_head_opt (l : List Char) (c : Char) (h : l.head? = some c) : c ∈ l := by
  cases l with
  | nil => simp at h
  | cons a t =>
    simp only [List.head?_cons, Option.some.injEq] at h
    rw [h]
    simp

theorem mem_of_getLast_opt (l : List Char) (c : Char) (h : l.getLast? = some c) : c ∈ l := by
  have : c ∈ l.reverse := by
    apply mem_of_head_opt
    rw [List.head?_reverse]
    exact h
  exact List.mem_reverse.mp this

theorem trimChars_of_all_safe (l : List Char) (h : l.all safeChar = true) :
    trimChars l = l := by
  apply trimChars_eq_self
  · intro c hc
    exact safeChar_not_ws c (List.all_eq_true.mp h c (mem_of_head_opt l c hc))
  · intro c hc
    exact safeChar_not_ws c (List.all_eq_true.mp h c (mem_of_getLast_opt l c hc))

theorem trimChars_cons_space (l : List Char) : trimChars (' ' :: l) = trimChars l := by
  unfold trimChars
  rw [List.dropWhile_cons_of_pos (by simp [isJsWs])]

theorem splitKeyColon_append (kl rest : List Char)
    (hk : ∀ c ∈ kl, ¬ c = ':')
    (hr : rest.isEmpty = true ∨ rest.head? = some ' ') :
    splitKeyColon (kl ++ ':' :: rest) = some (kl, rest) := by
  induction kl with
  | nil =>
    have hcond : (rest.isEmpty || decide (rest.head? = some ' ')) = true := by
      rcases hr with h | h
      · simp [h]
      · simp [h]
    simp [splitKeyColon, hcond]
  | cons c t ih =>
    have hc : ¬ c = ':' := hk c (by simp)
    simp only [List.cons_append, splitKeyColon, if_neg hc, List.append_eq]
    rw [ih (fun x hx => hk x (List.mem_cons_of_mem c hx))]

theorem isItemLine_false_of_head (l : List Char) (c : Char)
    (h : l.head? = some c) (hc : ¬ c = ' ') : isItemLine l = false := by
  cases l with
  | nil => simp at h
  | cons a t =>
    have ha : a = c := by simpa using h
    have hne : (a :: t).take 4 ≠ [' ', ' ', '-', ' '] := by
      intro hcontra
      apply hc
      rw [← ha]
      have := congrArg List.head? hcontra
      simpa using this
    simpa [isItemLine] using hne

theorem wfName_toList_ne_nil (s : String) (h : wfName s = true) : s.toList ≠ [] := by
  simp only [wfName, Bool.and_eq_true, Bool.not_eq_true'] at h
  simpa [List.isEmpty_iff] using h.1

theorem wfName_all_safe (s : String) (h : wfName s = true) :
    s.toList.all safeChar = true := by
  simp only [wfName, Bool.and_eq_true] at h
  exact h.2

theorem keyline_head (k : String) (rest : List Char) (h : wfName k = true) :
    ∃ c, (k.toList ++ rest).head? = some c ∧ safeChar c = true := by
  cases hk : k.toList with
  | nil => exact absurd hk (wfName_toList_ne_nil k h)
  | cons a t =>
    refine ⟨a, by simp [hk], ?_⟩
    apply List.all_eq_true.mp (wfName_all_safe k h)
    rw [hk]
    simp

theorem classifyLine_key_common (k : String) (rest : List Char) (hk : wfName k = true)
    (hr : rest.isEmpty = true ∨ rest.head? = some ' ')
    (hnb : ¬ trimChars (k.toList ++ ':' :: rest) = []) :
    classifyLine (k.toList ++ ':' :: rest)
      = (if (trimChars rest).isEmpty then LineKind.kEmpty k
         else if trimChars rest = ['[', ']'] then LineKind.kv k (.list [])
         else LineKind.kv k (.str (String.mk (trimChars rest)))) := by
  rcases keyline_head k (':' :: rest) hk with ⟨c, hc, hcs⟩
  have hitem : isItemLine (k.toList ++ ':' :: rest) = false := by
    apply isItemLine_false_of_head _ c hc
    intro he
    rw [he] at hcs
    simp [safeChar, isJsWs] at hcs
  have hsplit : splitKeyColon (k.toList ++ ':' :: rest) = some (k.toList, rest) := by
    apply splitKeyColon_append _ _ _ hr
    intro x hx
    exact (safeChar_ne x (List.all_eq_true.mp (wfName_all_safe k hk) x hx)).1
  have hblank : isBlankLine (k.toList ++ ':' :: rest) = false := by
    simp only [isBlankLine]
    simpa [List.isEmpty_iff] using hnb
  have htrimk : trimChars k.toList = k.toList :=
    trimChars_of_all_safe _ (wfName_all_safe k hk)
  have hkne : ¬ ((k.toList).isEmpty = true) := by
    simpa [List.isEmpty_iff] using wfName_toList_ne_nil k hk
  simp only [classifyLine, hblank, Bool.false_eq_true, if_false, hitem, hsplit, htrimk]
  rw [if_neg hkne]
  rfl

theorem classifyLine_str (k s : String) (hk : wfName k = true) (hs : wfName s = true) :
    classifyLine (k.toList ++ ':' :: ' ' :: s.toList) = .kv k (.str s) := by
  have hnb : ¬ trimChars (k.toList ++ ':' :: ' ' :: s.toList) = [] :=
    trimChars_ne_nil _ ':' (by simp) (by decide)
  rw [classifyLine_key_common k (' ' :: s.toList) hk (Or.inr rfl) hnb]
  have htrim : trimChars (' ' :: s.toList) = s.toList := by
    rw [trimChars_cons_space, trimChars_of_all_safe _ (wfName_all_safe s hs)]
  rw [htrim]
  rw [if_neg (by simpa [List.isEmpty_iff] using wfName_toList_ne_nil s hs)]
  have h2 : ¬ (s.toList = ['[', ']']) := by
    intro he
    have hmem : '[' ∈ s.toList := by
      rw [he]
      simp
    have := List.all_eq_true.mp (wfName_all_safe s hs) '[' hmem
    exact (safeChar_ne _ this).2.2.1 rfl
  rw [if_neg h2]
  rfl

theorem classifyLine_emptyList (k : String) (hk : wfName k = true) :
    classifyLine (k.toList ++ [':', ' ', '[', ']']) = .kv k (.list []) := by
  have he : (k.toList ++ [':', ' ', '[', ']']) = k.toList ++ ':' :: [' ', '[', ']'] := rfl
  rw [he]
  have hnb : ¬ trimChars (k.toList ++ ':' :: [' ', '[', ']']) = [] :=
    trimChars_ne_nil _ ':' (by simp) (by decide)
  rw [classifyLine_key_common k [' ', '[', ']'] hk (Or.inr rfl) hnb]
  have htrim : trimChars [' ', '[', ']'] = ['[', ']'] := by decide
  rw [htrim]
  rfl

theorem classifyLine_header (k : String) (hk : wfName k = true) :
    classifyLine (k.toList ++ [':']) = .kEmpty k := by
  have he : (k.toList ++ [':']) = k.toList ++ ':' :: [] := rfl
  rw [he]
  have hnb : ¬ trimChars (k.toList ++ ':' :: []) = [] :=
    trimChars_ne_nil _ ':' (by simp) (by decide)
  rw [classifyLine_key_common k [] hk (Or.inl rfl) hnb]
  rfl

theorem classifyLine_item (v : String) (hv : wfName v = true) :
    classifyLine (itemLine v) = .item v := by
  have hblank : isBlankLine (itemLine v) = false := by
    simp only [isBlankLine]
    have : trimChars (itemLine v) ≠ [] :=
      trimChars_ne_nil _ '-' (by simp [itemLine]) (by decide)
    simpa [List.isEmpty_iff] using this
  have hitem : isItemLine (itemLine v) = true := by
    simp [isItemLine, itemLine]
  have hdrop : (itemLine v).drop 4 = v.toList := rfl
  simp only [classifyLine, hblank, Bool.false_eq_true, if_false, hitem, if_true, hdrop,
    trimChars_of_all_safe _ (wfName_all_safe v hv)]
  rw [if_neg (by simpa [List.isEmpty_iff] using wfName_toList_ne_nil v hv)]
  rfl

/-! ### `mapSet` structure lemmas -/

theorem mapSet_fresh (acc : List (String × Yv)) (k : String) (v : Yv)
    (h : ∀ e ∈ acc, ¬ e.1 = k) : mapSet acc k v = acc ++ [(k, v)] := by
  induction acc with
  | nil => rfl
  | cons e rest ih =>
    have he : ¬ e.1 = k := h e (by simp)
    simp only [mapSet, if_neg he, List.cons_append, List.cons.injEq, true_and]
    exact ih (fun x hx => h x (List.mem_cons_of_mem e hx))

theorem mapSet_mem_nodup (m : List (String × Yv)) (k : String) (v : Yv)
    (hmem : (k, v) ∈ m) (hnd : (m.map Prod.fst).Nodup) : mapSet m k v = m := by
  induction m with
  | nil => simp at hmem
  | cons e rest ih =>
    by_cases he : e.1 = k
    · have hev : e = (k, v) := by
        rcases List.mem_cons.mp hmem with h | h
        · exact h.symm
        · exfalso
          have hk : k ∈ rest.map Prod.fst := by
            exact List.mem_map.mpr ⟨(k, v), h, rfl⟩
          have := (List.nodup_cons.mp hnd).1
          rw [he] at this
          exact this hk
      simp only [mapSet, if_pos he]
      rw [hev]
    · have hmem' : (k, v) ∈ rest := by
        rcases List.mem_cons.mp hmem with h | h
        · exfalso
          apply he
          rw [← h]
        · exact h
      simp only [mapSet, if_neg he]
      rw [ih hmem' (List.nodup_cons.mp hnd).2]

theorem mem_mapSet_self (m : List (String × Yv)) (k : String) (v : Yv) :
    (k, v) ∈ mapSet m k v := by
  induction m with
  | nil => simp [mapSet]
  | cons e rest ih =>
    by_cases he : e.1 = k
    · simp [mapSet, he]
    · simp only [mapSet, if_neg he]
      exact List.mem_cons_of_mem e ih

theorem mapSet_keys_sub (m : List (String × Yv)) (k k' : String) (v : Yv)
    (h : k' ∈ (mapSet m k v).map Prod.fst) : k' ∈ m.map Prod.fst ∨ k' = k := by
  induction m with
  | nil =>
    simp [mapSet] at h
    exact Or.inr h
  | cons e rest ih =>
    by_cases he : e.1 = k
    · simp only [mapSet, if_pos he, List.map_cons, List.mem_cons] at h
      rcases h with h | h
      · exact Or.inr h
      · exact Or.inl (by simp [h])
    · simp only [mapSet, if_neg he, List.map_cons, List.mem_cons] at h
      rcases h with h | h
      · exact Or.inl (by simp [h])
      · rcases ih h with h2 | h2
        · exact Or.inl (List.mem_cons_of_mem _ h2)
        · exact Or.inr h2

theorem mapSet_keys_nodup (m : List (String × Yv)) (k : String) (v : Yv)
    (hnd : (m.map Prod.fst).Nodup) : ((mapSet m k v).map Prod.fst).Nodup := by
  induction m with
  | nil => simp [mapSet]
  | cons e rest ih =>
    by_cases he : e.1 = k
    · simp only [mapSet, if_pos he, List.map_cons]
      rcases List.nodup_cons.mp hnd with ⟨hn1, hn2⟩
      rw [List.nodup_cons]
      refine ⟨?_, hn2⟩
      rw [← he]
      exact hn1
    · simp only [mapSet, if_neg he, List.map_cons]
      rcases List.nodup_cons.mp hnd with ⟨hn1, hn2⟩
      rw [List.nodup_cons]
      refine ⟨?_, ih hn2⟩
      intro hcontra
      rcases mapSet_keys_sub rest k e.1 v hcontra with h | h
      · exact hn1 h
      · exact he h

theorem mapSet_wf (m : List (String × Yv)) (k : String) (v : Yv)
    (hm : wfFm m = true) (hk : wfName k = true) (hv : wfVal v = true) :
    wfFm (mapSet m k v) = true := by
  induction m with
  | nil => simp [mapSet, wfFm, hk, hv]
  | cons e rest ih =>
    simp only [wfFm, List.all_cons, Bool.and_eq_true] at hm
    by_cases he : e.1 = k
    · simp only [mapSet, if_pos he, wfFm, List.all_cons, Bool.and_eq_true]
      exact ⟨⟨hk, hv⟩, hm.2⟩
    · simp only [mapSet, if_neg he, wfFm, List.all_cons, Bool.and_eq_true]
      exact ⟨hm.1, ih hm.2⟩

theorem mapSet_ne_nil (m : List (String × Yv)) (k : String) (v : Yv) :
    ¬ mapSet m k v = [] := by
  cases m with
  | nil => simp [mapSet]
  | cons e rest =>
    simp only [mapSet]
    by_cases he : e.1 = k
    · simp [he]
    · simp [he]

/-! ### Reparsing the serialized block -/

theorem parseMapLines_items (vs : List String) :
    ∀ (its : List String) (tail : List (List Char)) (k : String)
      (acc : List (String × Yv)),
      vs.all wfName = true →
      parseMapLines (vs.map itemLine ++ tail) (some (k, its)) acc
        = parseMapLines tail (some (k, vs.reverse ++ its)) acc := by
  induction vs with
  | nil =>
    intro its tail k acc _
    simp
  | cons w ws ih =>
    intro its tail k acc hwf
    rw [List.all_cons, Bool.and_eq_true] at hwf
    simp only [List.map_cons, List.cons_append]
    have hcl := classifyLine_item w hwf.1
    simp only [parseMapLines, hcl]
    rw [ih (w :: its) tail k acc hwf.2]
    have : ws.reverse ++ (w :: its) = (w :: ws).reverse ++ its := by
      simp [List.reverse_cons, List.append_assoc]
    rw [this]

theorem parseMapLines_step_kv (line : List Char) (rest : List (List Char))
    (k : String) (v : Yv) (acc : List (String × Yv))
    (hcl : classifyLine line = .kv k v) :
    parseMapLines (line :: rest) none acc = parseMapLines rest none (mapSet acc k v) := by
  simp only [parseMapLines, hcl]

theorem parseMapLines_step_header (line : List Char) (rest : List (List Char))
    (k : String) (acc : List (String × Yv))
    (hcl : classifyLine line = .kEmpty k) :
    parseMapLines (line :: rest) none acc = parseMapLines rest (some (k, [])) acc := by
  simp only [parseMapLines, hcl]

theorem parseMapLines_flush (tail : List (List Char)) (k : String) (its : List String)
    (acc : List (String × Yv)) (hits : ¬ its = [])
    (hhead : tail = [] ∨ ∃ line lt, tail = line :: lt ∧
      ((∃ k' v', classifyLine line = .kv k' v') ∨ (∃ k', classifyLine line = .kEmpty k'))) :
    parseMapLines tail (some (k, its)) acc
      = parseMapLines tail none (mapSet acc k (.list its.reverse)) := by
  have hits2 : ¬ (its.isEmpty = true) := by
    simpa [List.isEmpty_iff] using hits
  rcases hhead with h | ⟨line, lt, hline, hcl⟩
  · subst h
    simp only [parseMapLines]
    rw [if_neg hits2]
  · subst hline
    rcases hcl with ⟨k', v', hcl⟩ | ⟨k', hcl⟩
    · simp only [parseMapLines, hcl]
      rw [if_neg hits2]
    · simp only [parseMapLines, hcl]
      rw [if_neg hits2]

theorem pairLines_head_classify (p : String × Yv) (hwf : (wfName p.1 && wfVal p.2) = true) :
    ∃ line lt, pairLines p = line :: lt ∧
      ((∃ k' v', classifyLine line = .kv k' v') ∨ (∃ k', classifyLine line = .kEmpty k')) := by
  obtain ⟨k, v⟩ := p
  rw [Bool.and_eq_true] at hwf
  cases v with
  | str s =>
    exact ⟨_, [], rfl, Or.inl ⟨k, .str s, classifyLine_str k s hwf.1 (by simpa [wfVal] using hwf.2)⟩⟩
  | list vs =>
    cases vs with
    | nil => exact ⟨_, [], rfl, Or.inl ⟨k, .list [], classifyLine_emptyList k hwf.1⟩⟩
    | cons w ws =>
      exact ⟨_, (w :: ws).map itemLine, rfl, Or.inr ⟨k, classifyLine_header k hwf.1⟩⟩

theorem parseMapLines_flat (ps : List (String × Yv)) :
    ∀ acc : List (String × Yv),
      wfFm ps = true → ((ps.map Prod.fst).Nodup) →
      (∀ e ∈ acc, ∀ q ∈ ps, ¬ e.1 = q.1) →
      parseMapLines (ps.flatMap pairLines) none acc = .ok (acc ++ ps) := by
  induction ps with
  | nil =>
    intro acc _ _ _
    simp [parseMapLines]
  | cons p rest ih =>
    intro acc hwf hnd hfresh
    obtain ⟨k, v⟩ := p
    have hwfc : (wfName k && wfVal v) = true ∧ rest.all (fun p => wfName p.1 && wfVal p.2) = true := by
      have := hwf
      simp only [wfFm, List.all_cons, Bool.and_eq_true] at this
      simpa [Bool.and_eq_true] using this
    have hwf0 : (wfName k && wfVal v) = true := by
      simpa [Bool.and_eq_true] using hwfc.1
    have hwf1 : wfName k = true ∧ wfVal v = true := by
      simpa [Bool.and_eq_true] using hwf0
    have hwfr : wfFm rest = true := hwfc.2
    have hndr : (rest.map Prod.fst).Nodup := (List.nodup_cons.mp (by simpa using hnd)).2
    have hknotin : ¬ k ∈ rest.map Prod.fst := (List.nodup_cons.mp (by simpa using hnd)).1
    have hfreshhead : ∀ e ∈ acc, ¬ e.1 = k :=
      fun e he => hfresh e he (k, v) (by simp)
    have hfresh' : ∀ vv : Yv, ∀ e ∈ acc ++ [(k, vv)], ∀ q ∈ rest, ¬ e.1 = q.1 := by
      intro vv e he q hq
      rcases List.mem_append.mp he with he | he
      · exact hfresh e he q (List.mem_cons_of_mem _ hq)
      · have hevv : e = (k, vv) := by simpa using he
        rw [hevv]
        intro hcontra
        apply hknotin
        have hkq : k = q.1 := hcontra
        rw [hkq]
        exact List.mem_map.mpr ⟨q, hq, rfl⟩
    cases v with
    | str s =>
      have hcl := classifyLine_str k s hwf1.1 (by simpa [wfVal] using hwf1.2)
      have hflat : ((k, Yv.str s) :: rest).flatMap pairLines
          = (k.toList ++ ':' :: ' ' :: s.toList) :: rest.flatMap pairLines := by
        simp [pairLines]
      rw [hflat, parseMapLines_step_kv _ _ _ _ _ hcl,
        mapSet_fresh acc k (.str s) hfreshhead,
        ih (acc ++ [(k, Yv.str s)]) hwfr hndr (hfresh' (Yv.str s))]
      simp
    | list vs =>
      cases vs with
      | nil =>
        have hcl := classifyLine_emptyList k hwf1.1
        have hflat : ((k, Yv.list []) :: rest).flatMap pairLines
            = (k.toList ++ [':', ' ', '[', ']']) :: rest.flatMap pairLines := by
          simp [pairLines]
        rw [hflat, parseMapLines_step_kv _ _ _ _ _ hcl,
          mapSet_fresh acc k (.list []) hfreshhead,
          ih (acc ++ [(k, Yv.list [])]) hwfr hndr (hfresh' (Yv.list []))]
        simp
      | cons w ws =>
        have hvw : (w :: ws).all wfName = true := by
          simpa [wfVal] using hwf1.2
        have hflat : ((k, Yv.list (w :: ws)) :: rest).flatMap pairLines
            = (k.toList ++ [':']) :: ((w :: ws).map itemLine ++ rest.flatMap pairLines) := by
          simp [pairLines]
        rw [hflat, parseMapLines_step_header _ _ _ _ (classifyLine_header k hwf1.1),
          parseMapLines_items (w :: ws) [] (rest.flatMap pairLines) k acc hvw]
        have hflush : parseMapLines (rest.flatMap pairLines)
            (some (k, (w :: ws).reverse ++ [])) acc
              = parseMapLines (rest.flatMap pairLines) none
                  (mapSet acc k (.list ((w :: ws).reverse ++ []).reverse)) := by
          apply parseMapLines_flush
          · simp
          · cases rest with
            | nil => exact Or.inl (by simp)
            | cons p2 rest2 =>
              have hwf2 : (wfName p2.1 && wfVal p2.2) = true := by
                have := hwfr
                simp only [wfFm, List.all_cons, Bool.and_eq_true] at this
                simpa [Bool.and_eq_true] using this.1
              rcases pairLines_head_classify p2 hwf2 with ⟨line, lt, hpl, hcl2⟩
              refine Or.inr ⟨line, lt ++ rest2.flatMap pairLines, ?_, hcl2⟩
              simp [hpl]
        rw [hflush]
        have hrr : ((w :: ws).reverse ++ []).reverse = w :: ws := by
          simp
        rw [hrr, mapSet_fresh acc k (.list (w :: ws)) hfreshhead,
          ih (acc ++ [(k, Yv.list (w :: ws))]) hwfr hndr (hfresh' (Yv.list (w :: ws)))]
        simp

theorem getLast_opt_exists (l : List Char) (h : ¬ l = []) : ∃ c, l.getLast? = some c := by
  cases hr : l.reverse with
  | nil =>
    exfalso
    apply h
    simpa using congrArg List.reverse hr
  | cons a t =>
    refine ⟨a, ?_⟩
    rw [← List.head?_reverse, hr]
    rfl

theorem headline_trim (k : String) (rest0 : List Char) (hk : wfName k = true)
    (hlast : ∀ c, rest0.getLast? = some c → isJsWs c = false) :
    trimChars (k.toList ++ ':' :: rest0) = k.toList ++ ':' :: rest0 := by
  apply trimChars_eq_self
  · intro c hc
    rcases keyline_head k (':' :: rest0) hk with ⟨c0, hc0, hcs0⟩
    rw [hc0] at hc
    have : c0 = c := Option.some.inj hc
    rw [← this]
    exact safeChar_not_ws c0 hcs0
  · intro c hc
    cases hre : rest0 with
    | nil =>
      rw [hre] at hc
      have : (k.toList ++ [':']).getLast? = some ':' := List.getLast?_concat _
      rw [this] at hc
      have : ':' = c := Option.some.inj hc
      rw [← this]
      decide
    | cons b t =>
      rw [hre] at hc
      rcases getLast_opt_exists (b :: t) (by simp) with ⟨x, hx⟩
      have h1 : (k.toList ++ ':' :: b :: t).getLast? = some x := by
        rw [List.getLast?_append, List.getLast?_cons_cons, hx]
        rfl
      rw [h1] at hc
      have hxc : x = c := Option.some.inj hc
      apply hlast
      rw [hre, ← hxc]
      exact hx

theorem headline_facts (k : String) (rest0 : List Char) (hk : wfName k = true)
    (hr : rest0.isEmpty = true ∨ rest0.head? = some ' ')
    (hlast : ∀ c, rest0.getLast? = some c → isJsWs c = false) :
    isArrTopLine (k.toList ++ ':' :: rest0) = false
    ∧ (splitKeyColon (trimChars (k.toList ++ ':' :: rest0))).isNone = false := by
  have htrim := headline_trim k rest0 hk hlast
  constructor
  · simp only [isArrTopLine, htrim]
    have htake : ¬ ((k.toList ++ ':' :: rest0).take 2 = ['-', ' ']) := by
      cases hkl : k.toList with
      | nil => exact absurd hkl (wfName_toList_ne_nil k hk)
      | cons a t =>
        cases t with
        | nil =>
          intro hcontra
          simp only [List.cons_append, List.nil_append, List.take_succ_cons,
            List.take_zero] at hcontra
          have := (List.cons.inj hcontra).2
          have h2 := (List.cons.inj this).1
          exact absurd h2 (by decide)
        | cons b t2 =>
          intro hcontra
          simp only [List.cons_append, List.take_succ_cons, List.take_zero] at hcontra
          have hb : b = ' ' := by
            have := (List.cons.inj hcontra).2
            exact (List.cons.inj this).1
          have hbs : safeChar b = true := by
            apply List.all_eq_true.mp (wfName_all_safe k hk)
            rw [hkl]
            simp
          rw [hb] at hbs
          exact absurd hbs (by decide)
    simp
    intro hcontra
    exact absurd hcontra htake
  · have hsplit : splitKeyColon (k.toList ++ ':' :: rest0) = some (k.toList, rest0) := by
      apply splitKeyColon_append _ _ _ hr
      intro x hx
      exact (safeChar_ne x (List.all_eq_true.mp (wfName_all_safe k hk) x hx)).1
    rw [htrim, hsplit]
    rfl

theorem mem_keyline_chars (kl rest0 : List Char) (c : Char) (hc : c ∈ kl ++ ':' :: rest0) :
    c ∈ kl ∨ c = ':' ∨ c ∈ rest0 := by
  rcases List.mem_append.mp hc with h | h
  · exact Or.inl h
  · rcases List.mem_cons.mp h with h | h
    · exact Or.inr (Or.inl h)
    · exact Or.inr (Or.inr h)

theorem pairLines_no_nl (p : String × Yv) (hwf : (wfName p.1 && wfVal p.2) = true) :
    ∀ L ∈ pairLines p, ¬ '\n' ∈ L := by
  obtain ⟨k, v⟩ := p
  rw [Bool.and_eq_true] at hwf
  have hknl : ¬ '\n' ∈ k.toList := by
    intro hmem
    have := List.all_eq_true.mp (wfName_all_safe k hwf.1) _ hmem
    exact absurd (safeChar_not_ws _ this) (by decide)
  have hsafe_nl : ∀ (s : String), wfName s = true → ¬ '\n' ∈ s.toList := by
    intro s hs hmem
    have := List.all_eq_true.mp (wfName_all_safe s hs) _ hmem
    exact absurd (safeChar_not_ws _ this) (by decide)
  cases v with
  | str s =>
    intro L hL
    have : L = k.toList ++ ':' :: ' ' :: s.toList := by simpa [pairLines] using hL
    rw [this]
    intro hmem
    rcases mem_keyline_chars _ _ _ hmem with h | h | h
    · exact hknl h
    · exact absurd h (by decide)
    · rcases List.mem_cons.mp h with h | h
      · exact absurd h (by decide)
      · exact hsafe_nl s (by simpa [wfVal] using hwf.2) h
  | list vs =>
    cases vs with
    | nil =>
      intro L hL
      have : L = k.toList ++ [':', ' ', '[', ']'] := by simpa [pairLines] using hL
      rw [this]
      intro hmem
      rcases List.mem_append.mp hmem with h | h
      · exact hknl h
      · simp at h
    | cons w ws =>
      intro L hL
      simp only [pairLines, List.mem_cons] at hL
      rcases hL with hL | hL
      · rw [hL]
        intro hmem
        rcases List.mem_append.mp hmem with h | h
        · exact hknl h
        · simp at h
      · rcases List.mem_map.mp hL with ⟨x, hx, hxl⟩
        rw [← hxl]
        intro hmem
        simp only [itemLine, List.mem_cons] at hmem
        rcases hmem with h | h | h | h | h
        · exact absurd h (by decide)
        · exact absurd h (by decide)
        · exact absurd h (by decide)
        · exact absurd h (by decide)
        · have hxwf : wfName x = true := by
            have h2 : (w :: ws).all wfName = true := by simpa [wfVal] using hwf.2
            exact List.all_eq_true.mp h2 x hx
          exact hsafe_nl x hxwf h

theorem pairLines_not_blank (p : String × Yv) (hwf : (wfName p.1 && wfVal p.2) = true) :
    ∀ L ∈ pairLines p, isBlankLine L = false := by
  obtain ⟨k, v⟩ := p
  intro L hL
  simp only [isBlankLine]
  cases v with
  | str s =>
    have : L = k.toList ++ ':' :: ' ' :: s.toList := by simpa [pairLines] using hL
    rw [this]
    simpa [List.isEmpty_iff] using trimChars_ne_nil _ ':' (by simp) (by decide)
  | list vs =>
    cases vs with
    | nil =>
      have : L = k.toList ++ [':', ' ', '[', ']'] := by simpa [pairLines] using hL
      rw [this]
      simpa [List.isEmpty_iff] using trimChars_ne_nil _ ':' (by simp) (by decide)
    | cons w ws =>
      simp only [pairLines, List.mem_cons] at hL
      rcases hL with hL | hL
      · rw [hL]
        simpa [List.isEmpty_iff] using trimChars_ne_nil _ ':' (by simp) (by decide)
      · rcases List.mem_map.mp hL with ⟨x, _, hxl⟩
        rw [← hxl]
        simpa [List.isEmpty_iff] using
          trimChars_ne_nil _ '-' (by simp [itemLine]) (by decide)

/-- The capture region of the serialized block: the dump's lines joined
with `'\n'` separators but no trailing newline. -/
def joinBody : List (List Char) → List Char
  | [] => []
  | [l] => l
  | l :: rest => l ++ '\n' :: joinBody rest

theorem splitNl_no_nl (L : List Char) (h : ¬ '\n' ∈ L) : splitNl L = [L] := by
  induction L with
  | nil => rfl
  | cons c t ih =>
    have hc : ¬ c = '\n' := fun he => h (by rw [he]; simp)
    simp only [splitNl, if_neg hc]
    rw [ih (fun hm => h (List.mem_cons_of_mem c hm))]

theorem splitNl_append (L r : List Char) (h : ¬ '\n' ∈ L) :
    splitNl (L ++ '\n' :: r) = L :: splitNl r := by
  induction L with
  | nil =>
    simp [splitNl]
  | cons c t ih =>
    have hc : ¬ c = '\n' := fun he => h (by rw [he]; simp)
    simp only [List.cons_append, splitNl, if_neg hc, List.append_eq]
    rw [ih (fun hm => h (List.mem_cons_of_mem c hm))]

theorem splitNl_joinBody (ls : List (List Char)) (hne : ¬ ls = [])
    (h : ∀ L ∈ ls, ¬ '\n' ∈ L) : splitNl (joinBody ls) = ls := by
  induction ls with
  | nil => exact absurd rfl hne
  | cons l rest ih =>
    cases rest with
    | nil =>
      exact splitNl_no_nl l (h l (by simp))
    | cons l2 rest2 =>
      have hj : joinBody (l :: l2 :: rest2) = l ++ '\n' :: joinBody (l2 :: rest2) := rfl
      rw [hj, splitNl_append l _ (h l (by simp))]
      rw [ih (by simp) (fun L hL => h L (List.mem_cons_of_mem l hL))]

theorem all_false_of_head (p : List Char → Bool) (x : List Char) (xs : List (List Char))
    (h : p x = false) : (x :: xs).all p = false := by
  simp [List.all_cons, h]

theorem flatMap_pairLines_cons (p : String × Yv) (rest : List (String × Yv)) :
    ((p :: rest).flatMap pairLines) = pairLines p ++ rest.flatMap pairLines := by
  simp

theorem yamlLoad_dump (ps : List (String × Yv)) (hne : ¬ ps = [])
    (hwf : wfFm ps = true) :
    (∀ L ∈ ps.flatMap pairLines, ¬ '\n' ∈ L) →
    ((ps.map Prod.fst).Nodup) →
    yamlLoad (String.mk (joinBody (ps.flatMap pairLines))) = .ok (.map ps) := by
  intro hnl hnd
  obtain ⟨p, rest, rfl⟩ : ∃ p rest, ps = p :: rest := by
    cases ps with
    | nil => exact absurd rfl hne
    | cons p rest => exact ⟨p, rest, rfl⟩
  have hwfp : (wfName p.1 && wfVal p.2) = true := by
    have := hwf
    simp only [wfFm, List.all_cons, Bool.and_eq_true] at this
    simpa [Bool.and_eq_true] using this.1
  have hlines_ne : ¬ ((p :: rest).flatMap pairLines) = [] := by
    rw [flatMap_pairLines_cons]
    obtain ⟨k, v⟩ := p
    cases v with
    | str s => simp [pairLines]
    | list vs => cases vs <;> simp [pairLines]
  have hsplit : splitNl (String.mk (joinBody ((p :: rest).flatMap pairLines))).toList
      = (p :: rest).flatMap pairLines := by
    have : (String.mk (joinBody ((p :: rest).flatMap pairLines))).toList
        = joinBody ((p :: rest).flatMap pairLines) := rfl
    rw [this]
    exact splitNl_joinBody _ hlines_ne hnl
  have hblank : ∀ L ∈ (p :: rest).flatMap pairLines, isBlankLine L = false := by
    intro L hL
    rcases List.mem_flatMap.mp hL with ⟨q, hq, hLq⟩
    have hwfq : (wfName q.1 && wfVal q.2) = true := by
      have := hwf
      simp only [wfFm, List.all_eq_true] at this
      have h2 := this q hq
      simpa [Bool.and_eq_true] using h2
    exact pairLines_not_blank q hwfq L hLq
  have hfilter : ((p :: rest).flatMap pairLines).filter (fun l => !(isBlankLine l))
      = (p :: rest).flatMap pairLines := by
    rw [List.filter_eq_self]
    intro L hL
    rw [hblank L hL]
    rfl
  unfold yamlLoad
  simp only [hsplit, hfilter]
  obtain ⟨line1, ltail, hhead⟩ : ∃ line1 ltail,
      (p :: rest).flatMap pairLines = line1 :: ltail
        ∧ isArrTopLine line1 = false
        ∧ (splitKeyColon (trimChars line1)).isNone = false := by
    rw [flatMap_pairLines_cons]
    obtain ⟨k, v⟩ := p
    rw [Bool.and_eq_true] at hwfp
    cases v with
    | str s =>
      have hs : wfName s = true := by simpa [wfVal] using hwfp.2
      have hfacts := headline_facts k (' ' :: s.toList) hwfp.1 (Or.inr rfl)
        (fun c hc => by
          rcases getLast_opt_exists s.toList (wfName_toList_ne_nil s hs) with ⟨x, hx⟩
          have h1 : (' ' :: s.toList).getLast? = some x := by
            cases hsl : s.toList with
            | nil => exact absurd hsl (wfName_toList_ne_nil s hs)
            | cons a t =>
              rw [List.getLast?_cons_cons, ← hsl]
              exact hx
          rw [h1] at hc
          have : x = c := Option.some.inj hc
          rw [← this]
          exact safeChar_not_ws x
            (List.all_eq_true.mp (wfName_all_safe s hs) x (mem_of_getLast_opt _ x hx)))
      exact ⟨_, rest.flatMap pairLines, by simp [pairLines], hfacts.1, hfacts.2⟩
    | list vs =>
      cases vs with
      | nil =>
        have hfacts := headline_facts k [' ', '[', ']'] hwfp.1 (Or.inr rfl)
          (fun c hc => by
            have h1 : ([' ', '[', ']'] : List Char).getLast? = some ']' := by decide
            rw [h1] at hc
            have : ']' = c := Option.some.inj hc
            rw [← this]
            decide)
        refine ⟨_, rest.flatMap pairLines, ?_, hfacts.1, hfacts.2⟩
        simp [pairLines]
      | cons w ws =>
        have hfacts := headline_facts k [] hwfp.1 (Or.inl rfl) (fun c hc => by simp at hc)
        refine ⟨_, (w :: ws).map itemLine ++ rest.flatMap pairLines, ?_, hfacts.1, hfacts.2⟩
        simp [pairLines]
  rcases hhead with ⟨hhead, harr, hcolon⟩
  rw [hhead]
  rw [if_neg (by simp)]
  rw [if_neg (by
    rw [all_false_of_head _ _ _ harr]
    simp)]
  rw [if_neg (by
    rw [all_false_of_head _ _ _ (by simpa using hcolon)]
    simp)]
  rw [← hhead]
  rw [parseMapLines_flat (p :: rest) [] hwf hnd (by simp)]
  rfl

/-! ### The frontmatter regex on serialized blocks -/

/-- A dump line can never begin a `\n---\s*\n` closing match at its
separating newline: it has no newline of its own, is non-empty, and if it
starts with `---`, a non-whitespace character follows inside the line. -/
def lineSafe (L : List Char) : Prop :=
  (¬ '\n' ∈ L) ∧ (¬ L = []) ∧
    (L.take 3 = ['-', '-', '-'] → ∃ c ∈ L.drop 3, isJsWs c = false)

theorem joinNl_eq_joinBody (ls : List (List Char)) (h : ¬ ls = []) :
    joinNl ls = joinBody ls ++ ['\n'] := by
  induction ls with
  | nil => exact absurd rfl h
  | cons l rest ih =>
    cases rest with
    | nil => rfl
    | cons l2 rest2 =>
      have h1 : joinNl (l :: l2 :: rest2) = l ++ '\n' :: joinNl (l2 :: rest2) := rfl
      have h2 : joinBody (l :: l2 :: rest2) = l ++ '\n' :: joinBody (l2 :: rest2) := rfl
      rw [h1, h2, ih (by simp)]
      simp

theorem findIdx_opt_last (p : Char → Bool) (xs : List Char) (y : Char)
    (hxs : ∀ a ∈ xs, p a = false) (hy : p y = true) :
    ∀ i, (xs ++ [y]).findIdx? p i = some (i + xs.length) := by
  induction xs with
  | nil =>
    intro i
    simp [hy]
  | cons a t ih =>
    intro i
    have ha : p a = false := hxs a (by simp)
    simp only [List.cons_append, List.findIdx?_cons, ha, Bool.false_eq_true, if_false]
    rw [ih (fun x hx => hxs x (List.mem_cons_of_mem a hx)) (i + 1)]
    have : i + 1 + t.length = i + (a :: t).length := by
      simp
      omega
    rw [this]

theorem findIdx_opt_none (p : Char → Bool) (xs : List Char)
    (hxs : ∀ a ∈ xs, p a = false) : ∀ i, xs.findIdx? p i = none := by
  induction xs with
  | nil =>
    intro i
    simp
  | cons a t ih =>
    intro i
    have ha : p a = false := hxs a (by simp)
    simp only [List.findIdx?_cons, ha, Bool.false_eq_true, if_false]
    exact ih (fun x hx => hxs x (List.mem_cons_of_mem a hx)) (i + 1)

theorem takeWhile_stops (L r : List Char) (c : Char) (hcm : c ∈ L)
    (hc : isJsWs c = false) :
    (L ++ r).takeWhile isJsWs = L.takeWhile isJsWs := by
  induction L with
  | nil => simp at hcm
  | cons a t ih =>
    by_cases ha : isJsWs a
    · have hct : c ∈ t := by
        rcases List.mem_cons.mp hcm with h | h
        · rw [h] at hc
          rw [ha] at hc
          simp at hc
        · exact h
      simp only [List.cons_append, List.takeWhile_cons_of_pos ha]
      rw [ih hct]
    · simp only [List.cons_append, List.takeWhile_cons_of_neg ha,
        List.takeWhile_cons_of_neg ha]

theorem lastNl_none (l : List Char) (h : ¬ '\n' ∈ l.takeWhile isJsWs) :
    lastNlInRun l = none := by
  unfold lastNlInRun
  have hnone : (l.takeWhile isJsWs).reverse.findIdx? (fun c => decide (c = '\n')) = none := by
    apply findIdx_opt_none
    intro a ha
    simp only [decide_eq_false_iff_not]
    intro he
    apply h
    rw [← he]
    exact List.mem_reverse.mp ha
  simp only [hnone]

theorem lastNl_head_nl (body : List Char) (hbody : ¬ '\n' ∈ body.takeWhile isJsWs) :
    lastNlInRun ('\n' :: body) = some 0 := by
  unfold lastNlInRun
  have hrun : ('\n' :: body).takeWhile isJsWs = '\n' :: body.takeWhile isJsWs := by
    rw [List.takeWhile_cons_of_pos (by decide)]
  simp only [hrun]
  have hrev : ('\n' :: body.takeWhile isJsWs).reverse
      = (body.takeWhile isJsWs).reverse ++ ['\n'] := by
    simp
  have hidx : (('\n' :: body.takeWhile isJsWs).reverse).findIdx?
      (fun c => decide (c = '\n')) = some (0 + (body.takeWhile isJsWs).reverse.length) := by
    rw [hrev]
    apply findIdx_opt_last
    · intro a ha
      simp only [decide_eq_false_iff_not]
      intro he
      apply hbody
      rw [← he]
      exact List.mem_reverse.mp ha
    · decide
  simp only [hidx]
  simp

theorem closeLen_not_nl (c : Char) (l : List Char) (hc : ¬ c = '\n') :
    closeLen (c :: l) = none := by
  unfold closeLen
  rw [if_neg]
  intro hcontra
  apply hc
  have := congrArg List.head? hcontra
  simp only [List.take_succ_cons, List.head?_cons] at this
  exact Option.some.inj this

theorem closeLen_sep_none (L r : List Char) (hsafe : lineSafe L) :
    closeLen ('\n' :: (L ++ '\n' :: r)) = none := by
  rcases hsafe with ⟨hnl, hne, htake⟩
  by_cases hcond : ('\n' :: (L ++ '\n' :: r)).take 4 = ['\n', '-', '-', '-']
  · have hL3 : L.take 3 = ['-', '-', '-'] := by
      cases L with
      | nil => exact absurd rfl hne
      | cons a t =>
        cases t with
        | nil =>
          exfalso
          simp only [List.cons_append, List.nil_append, List.take_succ_cons,
            List.take_zero] at hcond
          have h1 := (List.cons.inj hcond).2
          have h2 := (List.cons.inj h1).2
          have h3 := (List.cons.inj h2).1
          exact absurd h3 (by decide)
        | cons b t2 =>
          cases t2 with
          | nil =>
            exfalso
            simp only [List.cons_append, List.nil_append, List.take_succ_cons,
              List.take_zero] at hcond
            have h1 := (List.cons.inj hcond).2
            have h2 := (List.cons.inj h1).2
            have h3 := (List.cons.inj h2).2
            have h4 := (List.cons.inj h3).1
            exact absurd h4 (by decide)
          | cons d t3 =>
            simp only [List.cons_append, List.take_succ_cons, List.take_zero] at hcond ⊢
            have h1 := (List.cons.inj hcond).2
            have h2 := (List.cons.inj h1).1
            have h3 := (List.cons.inj h1).2
            have h4 := (List.cons.inj h3).1
            have h5 := (List.cons.inj h3).2
            have h6 := (List.cons.inj h5).1
            rw [h2, h4, h6]
    rcases htake hL3 with ⟨c, hcm, hcw⟩
    unfold closeLen
    rw [if_pos hcond]
    have hlen : (L.take 3).length = 3 := by
      rw [hL3]
      rfl
    have hL : L = L.take 3 ++ L.drop 3 := (List.take_append_drop 3 L).symm
    have hdrop : ('\n' :: (L ++ '\n' :: r)).drop 4 = L.drop 3 ++ '\n' :: r := by
      calc ('\n' :: (L ++ '\n' :: r)).drop 4 = (L ++ '\n' :: r).drop 3 := rfl
        _ = ((L.take 3 ++ L.drop 3) ++ '\n' :: r).drop 3 := by rw [← hL]
        _ = (L.take 3 ++ (L.drop 3 ++ '\n' :: r)).drop 3 := by rw [List.append_assoc]
        _ = L.drop 3 ++ '\n' :: r := List.drop_left' hlen
    rw [hdrop]
    rw [lastNl_none]
    have hstops : (L.drop 3 ++ '\n' :: r).takeWhile isJsWs
        = (L.drop 3).takeWhile isJsWs := takeWhile_stops _ _ c hcm hcw
    rw [hstops]
    intro hmem
    apply hnl
    have h1 : '\n' ∈ L.drop 3 := (List.takeWhile_sublist isJsWs).mem hmem
    exact (List.drop_sublist 3 L).mem h1
  · unfold closeLen
    rw [if_neg hcond]

theorem closeLen_term (body : List Char)
    (hbody : ¬ '\n' ∈ body.takeWhile isJsWs) :
    closeLen ('\n' :: '-' :: '-' :: '-' :: '\n' :: body) = some 5 := by
  unfold closeLen
  have hc : ('\n' :: '-' :: '-' :: '-' :: '\n' :: body).take 4 = ['\n', '-', '-', '-'] := rfl
  rw [if_pos hc]
  have hdrop : ('\n' :: '-' :: '-' :: '-' :: '\n' :: body).drop 4 = '\n' :: body := rfl
  rw [hdrop, lastNl_head_nl body hbody]

theorem findClose_cons (c : Char) (l : List Char) (h : closeLen (c :: l) = none) :
    findClose (c :: l) = (findClose l).map (fun im => (im.1 + 1, im.2)) := by
  simp only [findClose, h]
  cases findClose l with
  | none => rfl
  | some im => rfl

theorem findClose_skip (L : List Char) :
    ∀ r : List Char, (¬ '\n' ∈ L) →
      findClose (L ++ r) = (findClose r).map (fun im => (im.1 + L.length, im.2)) := by
  induction L with
  | nil =>
    intro r _
    cases hf : findClose r with
    | none => simp [hf]
    | some im => simp [hf]
  | cons c t ih =>
    intro r h
    have hc : ¬ c = '\n' := fun he => h (by rw [he]; simp)
    have h1 : closeLen (c :: (t ++ r)) = none := closeLen_not_nl c _ hc
    rw [List.cons_append, findClose_cons c _ h1,
      ih r (fun hm => h (List.mem_cons_of_mem c hm))]
    cases findClose r with
    | none => rfl
    | some im =>
      simp only [Option.map_some']
      have : im.1 + t.length + 1 = im.1 + (c :: t).length := by
        simp
        omega
      rw [this]

theorem findClose_main (ls : List (List Char)) :
    ∀ body : List Char, (¬ ls = []) → (∀ L ∈ ls, lineSafe L) →
      (¬ '\n' ∈ body.takeWhile isJsWs) →
      findClose (joinNl ls ++ ('-' :: '-' :: '-' :: '\n' :: body))
        = some ((joinNl ls).length - 1, 5) := by
  induction ls with
  | nil =>
    intro body hne _ _
    exact absurd rfl hne
  | cons L rest ih =>
    intro body _ hsafe hbody
    have hLsafe := hsafe L (by simp)
    cases rest with
    | nil =>
      have hj : joinNl [L] = L ++ ['\n'] := rfl
      rw [hj, List.append_assoc]
      rw [findClose_skip L _ hLsafe.1]
      have hterm : findClose (['\n'] ++ ('-' :: '-' :: '-' :: '\n' :: body))
          = some (0, 5) := by
        have h1 : (['\n'] : List Char) ++ ('-' :: '-' :: '-' :: '\n' :: body)
            = '\n' :: '-' :: '-' :: '-' :: '\n' :: body := rfl
        rw [h1]
        simp only [findClose, closeLen_term body hbody]
      rw [hterm]
      simp
    | cons L2 rest2 =>
      have hj : joinNl (L :: L2 :: rest2) = L ++ '\n' :: joinNl (L2 :: rest2) := rfl
      rw [hj]
      have hassoc : (L ++ '\n' :: joinNl (L2 :: rest2)) ++ ('-' :: '-' :: '-' :: '\n' :: body)
          = L ++ ('\n' :: (joinNl (L2 :: rest2) ++ ('-' :: '-' :: '-' :: '\n' :: body))) := by
        simp
      rw [hassoc, findClose_skip L _ hLsafe.1]
      have hj2 : joinNl (L2 :: rest2) = L2 ++ '\n' :: joinNl rest2 := rfl
      have hsep : closeLen ('\n' :: (joinNl (L2 :: rest2)
          ++ ('-' :: '-' :: '-' :: '\n' :: body))) = none := by
        have h2 : joinNl (L2 :: rest2) ++ ('-' :: '-' :: '-' :: '\n' :: body)
            = L2 ++ '\n' :: (joinNl rest2 ++ ('-' :: '-' :: '-' :: '\n' :: body)) := by
          rw [hj2]
          simp
        rw [h2]
        exact closeLen_sep_none L2 _ (hsafe L2 (by simp))
      rw [findClose_cons _ _ hsep]
      rw [ih body (by simp) (fun x hx => hsafe x (List.mem_cons_of_mem L hx)) hbody]
      simp only [Option.map_some']
      have hlen : (joinNl (L2 :: rest2)).length - 1 + 1 + L.length
          = (joinNl (L :: L2 :: rest2)).length - 1 := by
        have hpos : 0 < (joinNl (L2 :: rest2)).length := by
          rw [hj2]
          simp
        have hL : (joinNl (L :: L2 :: rest2)).length
            = L.length + 1 + (joinNl (L2 :: rest2)).length := by
          rw [hj]
          simp
          omega
        omega
      rw [hlen, ← hj]

theorem getLast_opt_append_right (l1 l2 : List Char) (x : Char)
    (h : l2.getLast? = some x) : (l1 ++ l2).getLast? = some x := by
  rw [List.getLast?_append, h]
  rfl

theorem exists_drop3_of_last (L : List Char) (c : Char) (hlen : 4 ≤ L.length)
    (hlast : L.getLast? = some c) (hc : isJsWs c = false) :
    ∃ x ∈ L.drop 3, isJsWs x = false := by
  have hdp : ¬ (L.drop 3) = [] := by
    intro h
    have := congrArg List.length h
    simp at this
    omega
  rcases getLast_opt_exists (L.drop 3) hdp with ⟨x, hx⟩
  have hLx : L.getLast? = some x := by
    have hsplit : L = L.take 3 ++ L.drop 3 := (List.take_append_drop 3 L).symm
    calc L.getLast? = (L.take 3 ++ L.drop 3).getLast? := by rw [← hsplit]
      _ = some x := getLast_opt_append_right _ _ x hx
  have hcx : c = x := by
    rw [hlast] at hLx
    exact Option.some.inj hLx
  refine ⟨x, mem_of_getLast_opt _ x hx, ?_⟩
  rw [← hcx]
  exact hc

theorem pairLines_lineSafe (p : String × Yv) (hwf : (wfName p.1 && wfVal p.2) = true) :
    ∀ L ∈ pairLines p, lineSafe L := by
  intro L hL
  refine ⟨pairLines_no_nl p hwf L hL, ?_, ?_⟩
  · obtain ⟨k, v⟩ := p
    rw [Bool.and_eq_true] at hwf
    cases v with
    | str s =>
      have : L = k.toList ++ ':' :: ' ' :: s.toList := by simpa [pairLines] using hL
      rw [this]
      intro hcontra
      have := congrArg List.length hcontra
      simp at this
    | list vs =>
      cases vs with
      | nil =>
        have : L = k.toList ++ [':', ' ', '[', ']'] := by simpa [pairLines] using hL
        rw [this]
        intro hcontra
        have := congrArg List.length hcontra
        simp at this
      | cons w ws =>
        simp only [pairLines, List.mem_cons] at hL
        rcases hL with hL | hL
        · rw [hL]
          intro hcontra
          have := congrArg List.length hcontra
          simp at this
        · rcases List.mem_map.mp hL with ⟨x, _, hxl⟩
          rw [← hxl]
          intro hcontra
          have := congrArg List.length hcontra
          simp [itemLine] at this
  · obtain ⟨k, v⟩ := p
    rw [Bool.and_eq_true] at hwf
    have hkne := wfName_toList_ne_nil k hwf.1
    have hklen : 1 ≤ k.toList.length := by
      cases hkl : k.toList with
      | nil => exact absurd hkl hkne
      | cons a t => simp
    cases v with
    | str s =>
      have hLs : L = k.toList ++ ':' :: ' ' :: s.toList := by simpa [pairLines] using hL
      intro _
      have hs : wfName s = true := by simpa [wfVal] using hwf.2
      rcases getLast_opt_exists s.toList (wfName_toList_ne_nil s hs) with ⟨x, hx⟩
      have hslen : 1 ≤ s.toList.length := by
        cases hsl : s.toList with
        | nil => exact absurd hsl (wfName_toList_ne_nil s hs)
        | cons a t => simp
      apply exists_drop3_of_last L x
      · rw [hLs, List.length_append]
        simp only [List.length_cons]
        omega
      · rw [hLs]
        have hre : k.toList ++ ':' :: ' ' :: s.toList = (k.toList ++ [':', ' ']) ++ s.toList := by
          simp
        rw [hre]
        exact getLast_opt_append_right _ _ x hx
      · exact safeChar_not_ws x
          (List.all_eq_true.mp (wfName_all_safe s hs) x (mem_of_getLast_opt _ x hx))
    | list vs =>
      cases vs with
      | nil =>
        have hLs : L = k.toList ++ [':', ' ', '[', ']'] := by simpa [pairLines] using hL
        intro _
        apply exists_drop3_of_last L ']'
        · rw [hLs, List.length_append]
          simp only [List.length_cons, List.length_nil]
          omega
        · rw [hLs]
          have hre : k.toList ++ [':', ' ', '[', ']'] = (k.toList ++ [':', ' ', '[']) ++ [']'] := by
            simp
          rw [hre]
          exact List.getLast?_concat _
        · decide
      | cons w ws =>
        simp only [pairLines, List.mem_cons] at hL
        rcases hL with hLs | hLs
        · cases hkl : k.toList with
          | nil => exact absurd hkl hkne
          | cons a t =>
            cases t with
            | nil =>
              intro hcontra
              rw [hLs, hkl] at hcontra
              exfalso
              have := congrArg List.length hcontra
              simp at this
            | cons b t2 =>
              cases t2 with
              | nil =>
                intro hcontra
                rw [hLs, hkl] at hcontra
                exfalso
                simp only [List.cons_append, List.nil_append, List.take_succ_cons,
                  List.take_zero] at hcontra
                have h1 := (List.cons.inj hcontra).2
                have h2 := (List.cons.inj h1).2
                have h3 := (List.cons.inj h2).1
                exact absurd h3 (by decide)
              | cons d t3 =>
                intro _
                apply exists_drop3_of_last L ':'
                · rw [hLs, hkl, List.length_append]
                  simp only [List.length_cons, List.length_nil]
                  omega
                · rw [hLs]
                  exact List.getLast?_concat _
                · decide
        · rcases List.mem_map.mp hLs with ⟨x, _, hxl⟩
          rw [← hxl]
          intro hcontra
          exfalso
          simp only [itemLine, List.take_succ_cons, List.take_zero] at hcontra
          have h1 := (List.cons.inj hcontra).1
          exact absurd h1 (by decide)

theorem fmMatch_block (ls : List (List Char)) (body : List Char)
    (hne : ¬ ls = []) (hsafe : ∀ L ∈ ls, lineSafe L)
    (hhead : ∃ c r1 lt, ls = (c :: r1) :: lt ∧ isJsWs c = false)
    (hbody : ¬ '\n' ∈ body.takeWhile isJsWs) :
    fmMatch ('-' :: '-' :: '-' :: '\n'
        :: (joinNl ls ++ ('-' :: '-' :: '-' :: '\n' :: body)))
      = some (joinBody ls, body) := by
  unfold fmMatch
  have htake : ('-' :: '-' :: '-' :: '\n'
      :: (joinNl ls ++ ('-' :: '-' :: '-' :: '\n' :: body))).take 3 = ['-', '-', '-'] := rfl
  rw [if_pos htake]
  have hdrop3 : ('-' :: '-' :: '-' :: '\n'
      :: (joinNl ls ++ ('-' :: '-' :: '-' :: '\n' :: body))).drop 3
      = '\n' :: (joinNl ls ++ ('-' :: '-' :: '-' :: '\n' :: body)) := rfl
  rw [hdrop3]
  have hrun : ('\n' :: (joinNl ls ++ ('-' :: '-' :: '-' :: '\n' :: body))).takeWhile isJsWs
      = ['\n'] := by
    rcases hhead with ⟨c, r1, lt, hls, hcw⟩
    rw [List.takeWhile_cons_of_pos (by decide)]
    rw [hls]
    have hj : joinNl ((c :: r1) :: lt) = (c :: r1) ++ '\n' :: joinNl lt := rfl
    rw [hj]
    have : ((c :: r1) ++ '\n' :: joinNl lt) ++ ('-' :: '-' :: '-' :: '\n' :: body)
        = c :: ((r1 ++ '\n' :: joinNl lt) ++ ('-' :: '-' :: '-' :: '\n' :: body)) := by
      simp
    rw [this, List.takeWhile_cons_of_neg (by simp [hcw])]
  have hcand : nlCandidates ('\n' :: (joinNl ls ++ ('-' :: '-' :: '-' :: '\n' :: body)))
      = [0] := by
    unfold nlCandidates
    simp only [hrun]
    rfl
  rw [hcand]
  unfold tryOpens
  have hdrop1 : ('\n' :: (joinNl ls ++ ('-' :: '-' :: '-' :: '\n' :: body))).drop (0 + 1)
      = joinNl ls ++ ('-' :: '-' :: '-' :: '\n' :: body) := rfl
  simp only [hdrop1, findClose_main ls body hne hsafe hbody]
  have hjb := joinNl_eq_joinBody ls hne
  have hlen : (joinNl ls).length - 1 = (joinBody ls).length := by
    rw [hjb]
    simp
  have htakecap : (joinNl ls ++ ('-' :: '-' :: '-' :: '\n' :: body)).take
      ((joinNl ls).length - 1) = joinBody ls := by
    rw [hlen, hjb, List.append_assoc]
    exact List.take_left' rfl
  have hdropcap : (joinNl ls ++ ('-' :: '-' :: '-' :: '\n' :: body)).drop
      ((joinNl ls).length - 1 + 5) = body := by
    rw [hlen, hjb]
    have hre : (joinBody ls ++ ['\n']) ++ ('-' :: '-' :: '-' :: '\n' :: body)
        = (joinBody ls ++ ['\n', '-', '-', '-', '\n']) ++ body := by
      simp
    rw [hre]
    apply List.drop_left'
    rw [List.length_append]
    simp
  rw [htakecap, hdropcap]

instance : IsTotal (String × Yv) keyLe :=
  ⟨fun p q => lexLe_total p.1.toList q.1.toList⟩

instance : IsTrans (String × Yv) keyLe :=
  ⟨fun p q r h1 h2 => lexLe_trans p.1.toList q.1.toList r.1.toList h1 h2⟩

theorem sortPairs_perm (fm : List (String × Yv)) : List.Perm (sortPairs fm) fm :=
  List.perm_insertionSort keyLe fm

theorem sortPairs_sorted (fm : List (String × Yv)) : (sortPairs fm).Sorted keyLe :=
  List.sorted_insertionSort keyLe fm

theorem sortPairs_idem (fm : List (String × Yv)) : sortPairs (sortPairs fm) = sortPairs fm :=
  (sortPairs_sorted fm).insertionSort_eq

theorem sortPairs_ne_nil (fm : List (String × Yv)) (h : ¬ fm = []) :
    ¬ sortPairs fm = [] := by
  intro hs
  apply h
  have := (sortPairs_perm fm).length_eq
  rw [hs] at this
  cases fm with
  | nil => rfl
  | cons a t => simp at this

theorem sortPairs_wf (fm : List (String × Yv)) (h : wfFm fm = true) :
    wfFm (sortPairs fm) = true := by
  rw [wfFm, List.all_eq_true] at h ⊢
  intro x hx
  exact h x ((sortPairs_perm fm).mem_iff.mp hx)

theorem sortPairs_keys_nodup (fm : List (String × Yv))
    (h : (fm.map Prod.fst).Nodup) : ((sortPairs fm).map Prod.fst).Nodup :=
  (((sortPairs_perm fm).map Prod.fst).nodup_iff).mpr h

theorem parseFrontmatter_serialized (fm : List (String × Yv)) (body : List Char)
    (hne : ¬ fm = []) (hwf : wfFm fm = true) (hnd : (fm.map Prod.fst).Nodup)
    (hbody : ¬ '\n' ∈ body.takeWhile isJsWs) :
    parseFrontmatter (serializeFrontmatter fm ++ body) = (sortPairs fm, body, true) := by
  have hsne := sortPairs_ne_nil fm hne
  have hswf := sortPairs_wf fm hwf
  have hsnd := sortPairs_keys_nodup fm hnd
  have hwfall : ∀ q ∈ sortPairs fm, (wfName q.1 && wfVal q.2) = true := by
    intro q hq
    have := hswf
    rw [wfFm, List.all_eq_true] at this
    have h2 := this q hq
    simpa [Bool.and_eq_true] using h2
  have hlssafe : ∀ L ∈ (sortPairs fm).flatMap pairLines, lineSafe L := by
    intro L hL
    rcases List.mem_flatMap.mp hL with ⟨q, hq, hLq⟩
    exact pairLines_lineSafe q (hwfall q hq) L hLq
  have hnl : ∀ L ∈ (sortPairs fm).flatMap pairLines, ¬ '\n' ∈ L :=
    fun L hL => (hlssafe L hL).1
  obtain ⟨p0, rest0, hsp⟩ : ∃ p0 rest0, sortPairs fm = p0 :: rest0 := by
    cases hc : sortPairs fm with
    | nil => exact absurd hc hsne
    | cons a t => exact ⟨a, t, rfl⟩
  have hlsne : ¬ (sortPairs fm).flatMap pairLines = [] := by
    rw [hsp]
    obtain ⟨k, v⟩ := p0
    cases v with
    | str s => simp [pairLines]
    | list vs => cases vs <;> simp [pairLines]
  have hlshead : ∃ c r1 lt, (sortPairs fm).flatMap pairLines = (c :: r1) :: lt
      ∧ isJsWs c = false := by
    rw [hsp]
    obtain ⟨k, v⟩ := p0
    have hkw : wfName k = true := by
      have h2 := hwfall (k, v) (by rw [hsp]; simp)
      have h3 : wfName (k, v).1 = true ∧ wfVal (k, v).2 = true := by
        simpa [Bool.and_eq_true] using h2
      exact h3.1
    obtain ⟨c, t, hkl, hcs⟩ : ∃ c t, k.toList = c :: t ∧ safeChar c = true := by
      cases hkl : k.toList with
      | nil => exact absurd hkl (wfName_toList_ne_nil k hkw)
      | cons a t =>
        refine ⟨a, t, rfl, ?_⟩
        apply List.all_eq_true.mp (wfName_all_safe k hkw)
        rw [hkl]
        simp
    have hkd : k.data = c :: t := hkl
    cases v with
    | str s =>
      refine ⟨c, t ++ ':' :: ' ' :: s.toList, rest0.flatMap pairLines, ?_, safeChar_not_ws c hcs⟩
      simp [pairLines, hkd]
    | list vs =>
      cases vs with
      | nil =>
        refine ⟨c, t ++ [':', ' ', '[', ']'], rest0.flatMap pairLines, ?_, safeChar_not_ws c hcs⟩
        simp [pairLines, hkd]
      | cons w ws =>
        refine ⟨c, t ++ [':'], (w :: ws).map itemLine ++ rest0.flatMap pairLines, ?_,
          safeChar_not_ws c hcs⟩
        simp [pairLines, hkd]
  have hser : serializeFrontmatter fm ++ body
      = '-' :: '-' :: '-' :: '\n'
          :: (joinNl ((sortPairs fm).flatMap pairLines)
            ++ ('-' :: '-' :: '-' :: '\n' :: body)) := by
    unfold serializeFrontmatter
    rw [if_neg (by simpa [List.isEmpty_iff] using hne)]
    unfold yamlDump
    simp
  rw [hser]
  unfold parseFrontmatter
  rw [fmMatch_block _ body hlsne hlssafe hlshead hbody]
  have hld : yamlLoad (String.mk (joinBody ((sortPairs fm).flatMap pairLines)))
      = .ok (.map (sortPairs fm)) :=
    yamlLoad_dump (sortPairs fm) hsne hswf hnl hsnd
  simp only [hld]

/-- Serializing a sorted map equals serializing the unsorted one: the
dump sorts internally and sorting is idempotent. -/
theorem serializeFrontmatter_sortPairs (fm : List (String × Yv)) :
    serializeFrontmatter (sortPairs fm) = serializeFrontmatter fm := by
  by_cases h : fm = []
  · subst h; rfl
  · have h1 : (sortPairs fm).isEmpty = false := by
      simpa [List.isEmpty_iff] using sortPairs_ne_nil fm h
    have h2 : fm.isEmpty = false := by simpa [List.isEmpty_iff] using h
    unfold serializeFrontmatter yamlDump
    rw [sortPairs_idem]
    simp [h1, h2]

/-- A write is reported exactly when the returned content differs from the
input content (src/main.ts lines 607-616: the new text is compared with
the current text and written only when different). -/
theorem updateFileProperties_write_iff (field content : String) (ms : List String) :
    (updateFileProperties field content ms).2 = true
      ↔ ¬ (updateFileProperties field content ms).1 = content := by
  simp only [updateFileProperties]
  split <;> split <;> simp_all

/-- C4 counterexample: on the document `"\nx"` (body starting with a
newline) the first sync writes, and the second sync on the written
result writes AGAIN, because reparsing eats the body's leading newline:
the closing delimiter the serializer emits is `---\n`, but the
frontmatter regex closes with `\n---\s*\n` whose greedy `\s*` absorbs
the newline that begins the body, so the reassembled text is one byte
shorter and differs from the stored text, contradicting the claim that
the second call never writes. -/
theorem sync_second_write_counterexample :
    (updateFileProperties "mentions" "\nx" ["a"]).2 = true ∧
    (updateFileProperties "mentions" "\nx" ["a"]).1
      = "---\nmentions:\n  - a\n---\n\nx" ∧
    (updateFileProperties "mentions" "---\nmentions:\n  - a\n---\n\nx" ["a"]).2
      = true := by
  decide

/-- C4 (amended): running the sync twice with the same non-empty mention
set performs at most one write, PROVIDED the body that follows the
frontmatter does not begin with whitespace containing a newline (the
counterexample shows the closing-delimiter regex `\n---\s*\n` otherwise
absorbs it on reparse, forcing a second write). Under that proviso and
well-formed names (non-empty, free of YAML syntax characters) with
distinct keys: the first call writes exactly when the reassembled
content differs from the current content, and the second call, on the
first call's result, detects byte-identical reassembled content and
performs no write. -/
theorem sync_repeat_writes_once (field content : String) (ms : List String)
    (hf : wfName field = true) (hms : ¬ ms = []) (hmsw : ms.all wfName = true)
    (hfm : wfFm (parseFrontmatter content.toList).1 = true)
    (hnd : ((parseFrontmatter content.toList).1.map Prod.fst).Nodup)
    (hbody : ¬ '\n' ∈ (parseFrontmatter content.toList).2.1.takeWhile isJsWs) :
    ((updateFileProperties field content ms).2 = true
      ↔ ¬ (updateFileProperties field content ms).1 = content) ∧
    (updateFileProperties field
        (updateFileProperties field content ms).1 ms).2 = false := by
  have hlen : 0 < ms.length := by
    cases ms with
    | nil => exact absurd rfl hms
    | cons a t => simp
  have hval : wfVal (Yv.list ms) = true := hmsw
  refine ⟨updateFileProperties_write_iff field content ms, ?_⟩
  set fm0 := (parseFrontmatter content.toList).1 with hfm0
  set body := (parseFrontmatter content.toList).2.1 with hbody0
  set m1 := mapSet fm0 field (Yv.list ms) with hm1
  have hm1ne : ¬ m1 = [] := mapSet_ne_nil fm0 field (Yv.list ms)
  have hm1wf : wfFm m1 = true := mapSet_wf fm0 field (Yv.list ms) hfm hf hval
  have hm1nd : (m1.map Prod.fst).Nodup := mapSet_keys_nodup fm0 field (Yv.list ms) hnd
  have hparse2 : parseFrontmatter (serializeFrontmatter m1 ++ body)
      = (sortPairs m1, body, true) :=
    parseFrontmatter_serialized m1 body hm1ne hm1wf hm1nd hbody
  have hmem : (field, Yv.list ms) ∈ sortPairs m1 :=
    (sortPairs_perm m1).mem_iff.mpr (mem_mapSet_self fm0 field (Yv.list ms))
  have hset2 : mapSet (sortPairs m1) field (Yv.list ms) = sortPairs m1 :=
    mapSet_mem_nodup (sortPairs m1) field (Yv.list ms) hmem
      (sortPairs_keys_nodup m1 hm1nd)
  have htl : (String.mk (serializeFrontmatter m1 ++ body)).toList
      = serializeFrontmatter m1 ++ body := rfl
  have hcore : updateFileProperties field
      (String.mk (serializeFrontmatter m1 ++ body)) ms
      = (String.mk (serializeFrontmatter m1 ++ body), false) := by
    simp only [updateFileProperties, htl, hparse2, if_pos hlen]
    rw [hset2, serializeFrontmatter_sortPairs]
    simp
  have hfirst : updateFileProperties field content ms
      = if String.mk (serializeFrontmatter m1 ++ body) = content
        then (content, false)
        else (String.mk (serializeFrontmatter m1 ++ body), true) := by
    simp only [updateFileProperties, if_pos hlen]
  by_cases hc : String.mk (serializeFrontmatter m1 ++ body) = content
  · rw [hfirst, if_pos hc]
    show (updateFileProperties field content ms).2 = false
    rw [hfirst, if_pos hc]
  · rw [hfirst, if_neg hc]
    show (updateFileProperties field
      (String.mk (serializeFrontmatter m1 ++ body)) ms).2 = false
    rw [hcore]

/-- Witness for the amended repeat-sync theorem on a concrete document
with an existing `title` key, whose body does not start with whitespace
holding a newline. -/
theorem sync_repeat_writes_once_witness :
    ((updateFileProperties "mentions" "---\ntitle: X\n---\nbody" ["b", "c"]).2 = true
      ↔ ¬ (updateFileProperties "mentions" "---\ntitle: X\n---\nbody" ["b", "c"]).1
          = "---\ntitle: X\n---\nbody") ∧
    (updateFileProperties "mentions"
        (updateFileProperties "mentions" "---\ntitle: X\n---\nbody" ["b", "c"]).1
        ["b", "c"]).2 = false :=
  sync_repeat_writes_once "mentions" "---\ntitle: X\n---\nbody" ["b", "c"]
    (by decide) (by decide) (by decide) (by decide) (by decide) (by decide)
